import Mathlib

/-!
Verification of the C# code-search subsystem of this repository
(`code_search_tool.py`, class `CSharpCodeSearcher`).

The Python code is shallowly embedded: the filesystem is a finite tree of
named directories and files (a file carries its base name, its textual
content, its size in bytes, and two booleans modelling whether `stat` and
`open`/`read` succeed).  The regular expressions built by
`_get_search_patterns` use only a small fragment of Python's `re` syntax —
literal characters, `\b`, `\s+`, `\s*`, `.*` and a leading alternation of
literal words — so they are embedded as token lists with a backtracking
matcher whose semantics mirrors `re.search`.  The anchored `re.match`
patterns of `_analyze_cs_file` are embedded as dedicated extraction
functions that implement the greedy/backtracking behaviour of the concrete
pattern.  All definitions are executable, so concrete runs evaluate with
`decide` / `rfl`.
-/

/-! ## Character primitives (ASCII fragment of Python's `str` / `re`) -/

/-- Python `\w` (ASCII range): letters, digits and underscore. -/
def pyIsWordChar (c : Char) : Bool :=
  (65 ≤ c.toNat && c.toNat ≤ 90) || (97 ≤ c.toNat && c.toNat ≤ 122) ||
    (48 ≤ c.toNat && c.toNat ≤ 57) || c.toNat == 95

/-- Python `\s` (ASCII range): space, tab, newline, carriage return,
vertical tab, form feed. -/
def pyIsSpace (c : Char) : Bool :=
  c == ' ' || c == '\t' || c == '\n' || c == '\r' || c.toNat == 11 || c.toNat == 12

/-- ASCII lower-casing, as used by `str.lower()` and `re.IGNORECASE` on the
ASCII inputs of this development. -/
def pyToLower (c : Char) : Char :=
  if 65 ≤ c.toNat && c.toNat ≤ 90 then Char.ofNat (c.toNat + 32) else c

/-- Character comparison of the regex engine: exact, or up to ASCII case
folding when the `re.IGNORECASE` flag (`ci`) is set. -/
def charEq (ci : Bool) (a b : Char) : Bool :=
  if ci then pyToLower a == pyToLower b else a == b

/-- `str.lower()` on a whole string. -/
def pyLower (s : String) : String :=
  String.mk (s.data.map pyToLower)

/-- Characters of a string with surrounding Python whitespace removed
(`str.strip()`). -/
def pyStripC (s : List Char) : List Char :=
  ((s.dropWhile pyIsSpace).reverse.dropWhile pyIsSpace).reverse

/-- `str.strip()`. -/
def pyStrip (s : String) : String :=
  String.mk (pyStripC s.data)

/-- `str.split(sep)` for a one-character separator, on character lists:
always returns at least one (possibly empty) piece, exactly like Python. -/
def splitOnCharC (sep : Char) : List Char → List (List Char)
  | [] => [[]]
  | c :: cs =>
    match splitOnCharC sep cs, c == sep with
    | r, true => [] :: r
    | [], false => [[c]]
    | l :: ls, false => (c :: l) :: ls

/-- `content.split('\n')` on character lists. -/
def splitLinesC : List Char → List (List Char) :=
  splitOnCharC '\n'

/-- `content.split('\n')` as a list of strings. -/
def pySplitLines (s : String) : List String :=
  (splitLinesC s.data).map String.mk

/-- Index of the last `'.'` in a character list (`str.rfind('.')` when it
succeeds). -/
def lastDotIdx : List Char → Option Nat
  | [] => none
  | c :: cs =>
    match lastDotIdx cs, c == '.' with
    | some i, _ => some (i + 1)
    | none, true => some 0
    | none, false => none

/-- `pathlib.PurePath.suffix` of a base name: the part from the last dot on,
provided that dot is neither the first nor the last character. -/
def pySuffix (name : String) : String :=
  match lastDotIdx name.data with
  | none => ""
  | some i => if 0 < i && i + 1 < name.data.length then String.mk (name.data.drop i) else ""

/-- `f.readlines()` of a text file whose content is `s`: each line keeps its
trailing newline; a final piece without newline is kept, a trailing empty
piece is not. -/
def pyReadlines (s : String) : List String :=
  let parts := splitLinesC s.data
  let front := (parts.dropLast).map (fun l => String.mk (l ++ ['\n']))
  if (parts.getLastD []).isEmpty then front
  else front ++ [String.mk (parts.getLastD [])]

/-! ## The regex fragment used by `_get_search_patterns`

A pattern is a list of tokens.  `re.escape(query)` makes the query a pure
literal, so a query is embedded as a list of `lit` tokens.  The leading
alternation groups `(public|...|static)` and `(var|int|...)` of the method
and variable patterns are expanded into one token list per alternative;
`re.search` over `(w₁|…|wₙ)T` succeeds iff it succeeds for some `wᵢT`, and
`_search_in_file` only uses the boolean result of each pattern, so this
expansion preserves behaviour. -/

inductive RTok where
  /-- a literal character (from `re.escape`d text) -/
  | lit (c : Char)
  /-- `\b`, zero-width word boundary -/
  | wb
  /-- `\s*` -/
  | sstar
  /-- `\s+` -/
  | splus
  /-- `.*` -/
  | dotStar
deriving Repr, DecidableEq

/-- Word boundary test of `\b`: the two sides (previous character /
character at the current position, `none` at the edges) disagree on
word-character-ness. -/
def isBoundaryAt (prev next : Option Char) : Bool :=
  (match prev with | none => false | some c => pyIsWordChar c) !=
    (match next with | none => false | some c => pyIsWordChar c)

/-- Fuelled backtracking matcher: does the token list match a prefix of `s`,
where `prev` is the character immediately before `s` in the subject line
(`none` at the start of the line)?  Mirrors how `re` matches the pattern at
one start position; greediness is irrelevant because only the boolean result
is used.  Any run with `toks.length + s.length < fuel` is fuel-independent
(see `matchToksF_stable`). -/
def matchToksF (ci : Bool) : Nat → List RTok → Option Char → List Char → Bool
  | 0, _, _, _ => false
  | _ + 1, [], _, _ => true
  | fuel + 1, .lit c :: ps, _, s =>
    match s with
    | [] => false
    | x :: xs => charEq ci c x && matchToksF ci fuel ps (some x) xs
  | fuel + 1, .wb :: ps, prev, s =>
    isBoundaryAt prev s.head? && matchToksF ci fuel ps prev s
  | fuel + 1, .sstar :: ps, prev, s =>
    matchToksF ci fuel ps prev s ||
      (match s with
       | [] => false
       | x :: xs => pyIsSpace x && matchToksF ci fuel (.sstar :: ps) (some x) xs)
  | fuel + 1, .splus :: ps, _, s =>
    match s with
    | [] => false
    | x :: xs => pyIsSpace x && matchToksF ci fuel (.sstar :: ps) (some x) xs
  | fuel + 1, .dotStar :: ps, prev, s =>
    matchToksF ci fuel ps prev s ||
      (match s with
       | [] => false
       | x :: xs => x != '\n' && matchToksF ci fuel (.dotStar :: ps) (some x) xs)

/-- The matcher with canonical (always sufficient) fuel. -/
def matchToks (ci : Bool) (toks : List RTok) (prev : Option Char) (s : List Char) : Bool :=
  matchToksF ci (toks.length + s.length + 1) toks prev s

/-- `re.search`: try to match the pattern at every start position of the
line, left to right, tracking the character before the current position for
`\b`. -/
def searchFrom (ci : Bool) (p : List RTok) : Option Char → List Char → Bool
  | prev, [] => matchToks ci p prev []
  | prev, x :: xs => matchToks ci p prev (x :: xs) || searchFrom ci p (some x) xs

/-- `re.search(pattern, line, flags)` as a boolean, `ci` being the
`re.IGNORECASE` flag. -/
def reSearch (ci : Bool) (p : List RTok) (line : String) : Bool :=
  searchFrom ci p none line.data

/-- Python's substring operator `needle in hay` on character lists. -/
def pyInStr (needle : List Char) : List Char → Bool
  | [] => needle.isEmpty
  | x :: xs => needle.isPrefixOf (x :: xs) || pyInStr needle xs

/-! ## Data model: configuration and filesystem -/

/-- A file: base name, textual content, size in bytes (`st_size`), and two
booleans modelling the fallible system calls — `stat_ok` is false when
`file_path.stat()` raises `OSError`, `readable` is false when
`open`/`read` raises. -/
structure FileEntry where
  name : String
  content : String
  size : Nat
  stat_ok : Bool := true
  readable : Bool := true
deriving Repr, DecidableEq

/-- A directory tree: base name, subdirectories, files. -/
inductive DirTree where
  | node (name : String) (subdirs : List DirTree) (files : List FileEntry)
deriving Repr

/-- Base name of a directory. -/
def DirTree.dname : DirTree → String
  | .node n _ _ => n

/-- The `CSharpCodeSearcher` configuration (`__init__`).  `root = none`
models a `code_folder_path` that does not exist on disk; when it is
`some t`, `t.dname` is the base name of the root directory.
`max_file_size_bytes` is `max_file_size_mb * 1024 * 1024`. -/
structure CSharpCodeSearcher where
  root : Option DirTree
  skip_folders : List String
  file_extensions : List String
  max_file_size_bytes : Nat

/-- `_should_skip_folder`: some configured skip fragment occurs (lower-cased,
as a substring) in the folder's lower-cased base name. -/
def should_skip_folder (cfg : CSharpCodeSearcher) (folderName : String) : Bool :=
  cfg.skip_folders.any (fun sk => pyInStr (pyLower sk).data (pyLower folderName).data)

/-- `_should_include_file`: the lower-cased suffix equals some configured
extension (compared lower-cased), the `stat` call succeeds, and the size
does not exceed the ceiling. -/
def should_include_file (cfg : CSharpCodeSearcher) (f : FileEntry) : Bool :=
  cfg.file_extensions.any (fun ext => pyLower (pySuffix f.name) == pyLower ext) &&
    (f.stat_ok && decide (f.size ≤ cfg.max_file_size_bytes))

/-! ## Walker (`os.walk` with in-place pruning)

`os.walk(root)` is top-down: it yields the current directory's files, then
recurses into each subdirectory in order.  `dirs[:] = [d for d in dirs if
not self._should_skip_folder(root_path / d)]` prunes subtrees before
descending; the root directory itself is never tested.  `os.walk` on a
nonexistent root yields nothing (listing errors go to the default
`onerror=None` and are ignored), which is why only `scan_codebase` — which
checks `exists()` explicitly — reports a missing root.

A walk entry is `(dirs, f)` where `dirs` is the list of directory names
from (but excluding) the root down to the file's directory, and `f` the
file; `dirs ++ [f.name]` is the path relative to the root. -/

mutual

def walkDir (cfg : CSharpCodeSearcher) (pfx : List String) : DirTree → List (List String × FileEntry)
  | .node _ subdirs files =>
    files.map (fun f => (pfx, f)) ++ walkDirs cfg pfx subdirs

def walkDirs (cfg : CSharpCodeSearcher) (pfx : List String) : List DirTree → List (List String × FileEntry)
  | [] => []
  | d :: ds =>
    (if should_skip_folder cfg d.dname then [] else walkDir cfg (pfx ++ [d.dname]) d) ++
      walkDirs cfg pfx ds

end

/-- All files yielded by `os.walk(self.code_folder_path)` after directory
pruning (empty when the root path does not exist). -/
def walkFiles (cfg : CSharpCodeSearcher) : List (List String × FileEntry) :=
  match cfg.root with
  | none => []
  | some t => walkDir cfg [] t

/-- `str(file_path.relative_to(self.code_folder_path))` (with `/` as
separator). -/
def relStr (dirs : List String) (fileName : String) : String :=
  String.intercalate "/" (dirs ++ [fileName])

/-! ## `_get_search_patterns` -/

/-- An `re.escape`d literal as tokens. -/
def lits (s : String) : List RTok :=
  s.data.map RTok.lit

/-- `_get_search_patterns(query, search_type)`: the regex patterns per
search type, as token lists.  The leading alternation groups of the method
and variable patterns are expanded into one token list per alternative
word (boolean-match preserving, see above). -/
def get_search_patterns (query : String) (searchType : String) : List (List RTok) :=
  if searchType == "content" then
    [lits query]
  else if searchType == "class" then
    ["class", "interface", "struct", "enum"].map
      (fun kw => .wb :: lits kw ++ .splus :: lits query ++ [.wb])
  else if searchType == "method" then
    (.wb :: lits query ++ [.sstar, .lit '(']) ::
      ["public", "private", "protected", "internal", "static"].map
        (fun m => lits m ++ .dotStar :: .wb :: lits query ++ [.sstar, .lit '('])
  else if searchType == "variable" then
    (.wb :: lits query ++ [.wb]) ::
      ["var", "int", "string", "bool", "double", "float", "decimal", "object"].map
        (fun t => lits t ++ .splus :: lits query ++ [.wb])
  else []

/-! ## `_search_in_file` -/

/-- One search hit.  Mirrors the result dictionary; the Python key `match`
is a Lean keyword and is called `matchText` here.  The filename-mode
dictionary has no context keys; the defaults stand for the absent keys. -/
structure MatchRecord where
  file : String
  type : String
  line_number : Nat
  matchText : String
  context : List String := []
  context_start_line : Nat := 0
deriving Repr, DecidableEq

/-- `_search_in_file(content, file_path, query, search_type, case_sensitive,
context_lines)`.  `relPath` is `str(file_path.relative_to(root))` and
`fileName` is `file_path.name`.  The `for pattern: … break` over a line is
an `any` — at most one record per line, and the record does not depend on
which pattern hit.  Python's slice arithmetic `max(0, i - 1 - context_lines)`
is plain truncated subtraction on `Nat`. -/
def search_in_file (content relPath fileName query searchType : String)
    (caseSensitive : Bool) (contextLines : Nat) : List MatchRecord :=
  let lines := pySplitLines content
  if searchType == "filename" then
    if (caseSensitive && pyInStr query.data fileName.data) ||
        (!caseSensitive && pyInStr (pyLower query).data (pyLower fileName).data) then
      [{ file := relPath, type := "filename", line_number := 0, matchText := fileName }]
    else []
  else if ["content", "class", "method", "variable"].contains searchType then
    let pats := get_search_patterns query searchType
    (lines.enumFrom 1).filterMap (fun il =>
      if pats.any (fun p => reSearch (!caseSensitive) p il.2) then
        let startLine := il.1 - 1 - contextLines
        let endLine := min lines.length (il.1 + contextLines)
        some { file := relPath, type := searchType, line_number := il.1,
               matchText := pyStrip il.2,
               context := (lines.drop startLine).take (endLine - startLine),
               context_start_line := startLine + 1 }
      else none)
  else []

/-! ## `search_code` -/

/-- The dictionary returned by `search_code`.  In this model the outer
`try/except` never fires (`os.walk` suppresses listing errors and a missing
root yields an empty walk), so `error` is always `none` here; it is kept
because the claims talk about it. -/
structure SearchResult where
  query : String
  search_type : String
  total_matches : Nat
  results : List MatchRecord
  error : Option String := none
deriving Repr, DecidableEq

/-- The traversal loop of `search_code`, flattened over the walk order: for
each file, skip it unless `_should_include_file`; skip it silently if
reading raises; otherwise search it, extend the accumulator, and stop as
soon as `max_results ≤ len(results)` (the two nested `break`s).  Returns
the accumulated records and the list of files whose content was actually
read and searched. -/
def searchLoop (cfg : CSharpCodeSearcher) (query searchType : String) (caseSensitive : Bool)
    (maxResults contextLines : Nat) (acc : List MatchRecord) :
    List (List String × FileEntry) → List MatchRecord × List (List String × FileEntry)
  | [] => (acc, [])
  | (dirs, f) :: rest =>
    if should_include_file cfg f then
      if f.readable then
        let ms := search_in_file f.content (relStr dirs f.name) f.name query searchType
          caseSensitive contextLines
        let acc2 := acc ++ ms
        if maxResults ≤ acc2.length then (acc2, [(dirs, f)])
        else
          let r := searchLoop cfg query searchType caseSensitive maxResults contextLines acc2 rest
          (r.1, (dirs, f) :: r.2)
      else searchLoop cfg query searchType caseSensitive maxResults contextLines acc rest
    else searchLoop cfg query searchType caseSensitive maxResults contextLines acc rest

/-- Accumulated records and read files of a whole `search_code` run. -/
def search_core (cfg : CSharpCodeSearcher) (query searchType : String) (caseSensitive : Bool)
    (maxResults contextLines : Nat) : List MatchRecord × List (List String × FileEntry) :=
  searchLoop cfg query searchType caseSensitive maxResults contextLines [] (walkFiles cfg)

/-- `search_code(query, search_type, case_sensitive, max_results,
context_lines)`: `total_matches` is the length of the untruncated
accumulator, `results` is the accumulator truncated to `max_results`. -/
def search_code (cfg : CSharpCodeSearcher) (query searchType : String) (caseSensitive : Bool)
    (maxResults contextLines : Nat) : SearchResult :=
  let r := search_core cfg query searchType caseSensitive maxResults contextLines
  { query := query, search_type := searchType, total_matches := r.1.length,
    results := r.1.take maxResults, error := none }

/-! ## `scan_codebase` -/

/-- The dictionary returned by `scan_codebase`; `summary` is the
insertion-ordered mapping extension ↦ relative paths. -/
structure ScanResult where
  summary : List (String × List String)
  total_files : Nat
  project_root : String
deriving Repr, DecidableEq

/-- Appending to `file_summary[ext]`, creating the key on first use
(insertion-ordered, like a Python dict). -/
def upsert (summary : List (String × List String)) (ext p : String) :
    List (String × List String) :=
  match summary with
  | [] => [(ext, [p])]
  | (e, ps) :: rest => if e == ext then (e, ps ++ [p]) :: rest else (e, ps) :: upsert rest ext p

/-- The accumulation loop of `scan_codebase` over the walk order. -/
def scanLoop (cfg : CSharpCodeSearcher) :
    List (List String × FileEntry) → List (String × List String) × Nat →
      List (String × List String) × Nat
  | [], st => st
  | (dirs, f) :: rest, (summary, total) =>
    if should_include_file cfg f then
      scanLoop cfg rest (upsert summary (pyLower (pySuffix f.name)) (relStr dirs f.name), total + 1)
    else scanLoop cfg rest (summary, total)

/-- `scan_codebase()`: raises `FileNotFoundError` (surfaced to the caller)
when the root does not exist, otherwise walks the whole tree and groups the
admitted files by lower-cased extension. -/
def scan_codebase (cfg : CSharpCodeSearcher) : Except String ScanResult :=
  match cfg.root with
  | none => .error "FileNotFoundError: Code folder not found"
  | some t =>
    let st := scanLoop cfg (walkDir cfg [] t) ([], 0)
    .ok { summary := st.1, total_files := st.2, project_root := t.dname }

/-! ## `_analyze_cs_file`

The four `re.match` patterns of `_analyze_cs_file` are embedded as
extraction functions.  `re.match(r'.*K\s+(\w+)', line)` has a greedy `.*`,
so the keyword occurrence that matches is the **last** position where the
rest of the pattern succeeds; at a fixed position, backtracking inside
`K\s+(\w+)` cannot help beyond taking the maximal space run and the maximal
word run (shrinking `\s+` leaves a space where a word character is needed,
and shrinking `\w+` leaves a word character where the next token is
needed), so the group is the maximal `\w+` run after the maximal space run. -/

/-- Does `kw` followed by `\s+(\w+)` match here (anchored)?  Returns the
group. -/
def kwIdAt (kw s : List Char) : Option (List Char) :=
  if kw.isPrefixOf s then
    let rest := s.drop kw.length
    let sp := rest.takeWhile pyIsSpace
    if sp.isEmpty then none
    else
      let g := (rest.drop sp.length).takeWhile pyIsWordChar
      if g.isEmpty then none else some g
  else none

/-- `re.match(r'.*' + kw + r'\s+(\w+)', line).group(1)`: the group at the
last position where the tail matches (greedy `.*`). -/
def lastKwGroup (kw : List Char) : List Char → Option (List Char)
  | [] => kwIdAt kw []
  | x :: xs =>
    match lastKwGroup kw xs with
    | some g => some g
    | none => kwIdAt kw (x :: xs)

/-- `re.match(r'namespace\s+([\w\.]+)', line).group(1)` (anchored; the
character class additionally allows dots). -/
def namespaceGroup (s : List Char) : Option (List Char) :=
  if ("namespace").data.isPrefixOf s then
    let rest := s.drop 9
    let sp := rest.takeWhile pyIsSpace
    if sp.isEmpty then none
    else
      let g := (rest.drop sp.length).takeWhile (fun c => pyIsWordChar c || c == '.')
      if g.isEmpty then none else some g
  else none

/-- Does `\s+(\w+)\s*\(` match here (anchored)?  Returns the group. -/
def tailParenAt (s : List Char) : Option (List Char) :=
  let sp := s.takeWhile pyIsSpace
  if sp.isEmpty then none
  else
    let r1 := s.drop sp.length
    let w := r1.takeWhile pyIsWordChar
    if w.isEmpty then none
    else
      let r2 := (r1.drop w.length).dropWhile pyIsSpace
      match r2.head? with
      | some c => if c == '(' then some w else none
      | none => none

/-- `.*\s+(\w+)\s*\(` anchored at the start of `s`: the group at the last
position where the tail matches (greedy inner `.*`). -/
def methodTailGroup : List Char → Option (List Char)
  | [] => tailParenAt []
  | x :: xs =>
    match methodTailGroup xs with
    | some g => some g
    | none => tailParenAt (x :: xs)

/-- The access-modifier alternatives of the method pattern. -/
def pyModifiersC : List (List Char) :=
  [("public").data, ("private").data, ("protected").data, ("internal").data]

/-- One alternative of `(public|…|internal)` at this position, followed by
the `.*\s+(\w+)\s*\(` tail. -/
def modAt (m s : List Char) : Option (List Char) :=
  if m.isPrefixOf s then methodTailGroup (s.drop m.length) else none

/-- The alternation `(public|private|protected|internal)` at this position
(no two alternatives can match at once — none is a prefix of another),
followed by the tail. -/
def modifierTailAt (s : List Char) : Option (List Char) :=
  pyModifiersC.foldl
    (fun acc m => match acc with | some g => some g | none => modAt m s) none

/-- `re.match(r'.*(public|private|protected|internal).*\s+(\w+)\s*\(',
line).group(2)`: the group at the last modifier position where the rest of
the pattern succeeds (greedy leading `.*`). -/
def methodGroup : List Char → Option (List Char)
  | [] => modifierTailAt []
  | x :: xs =>
    match methodGroup xs with
    | some g => some g
    | none => modifierTailAt (x :: xs)

/-- The `ProjectAnalysis` accumulator and (after export) result.  Python
uses `set`s for `namespaces`/`classes`/`interfaces`/`using_statements`;
they are modelled as insertion-ordered duplicate-free lists (set iteration
order is not observable in any claim — ​membership, size and freedom from
duplicates are). -/
structure ProjectAnalysis where
  namespaces : List String := []
  classes : List String := []
  interfaces : List String := []
  methods : List (String × String) := []
  using_statements : List String := []
  project_files : List String := []
  error : Option String := none
deriving Repr, DecidableEq

/-- `set.add`: insert unless already present. -/
def sinsert (l : List String) (x : String) : List String :=
  if l.contains x then l else l ++ [x]

/-- Control-flow words excluded from method names. -/
def reservedWords : List String :=
  ["if", "for", "while", "switch", "using"]

/-- The `using`-statement block of `_analyze_cs_file`'s line loop
(`line.startswith('using ') and not line.startswith('using (')`). -/
def analyze_using (line : String) (acc : ProjectAnalysis) : ProjectAnalysis :=
  if ("using ").data.isPrefixOf line.data && !(("using (").data.isPrefixOf line.data) then
    { acc with using_statements := sinsert acc.using_statements line }
  else acc

/-- The namespace block of the line loop. -/
def analyze_namespace (line : String) (acc : ProjectAnalysis) : ProjectAnalysis :=
  match namespaceGroup line.data with
  | some g => { acc with namespaces := sinsert acc.namespaces (String.mk g) }
  | none => acc

/-- The class block of the line loop. -/
def analyze_class (line : String) (acc : ProjectAnalysis) : ProjectAnalysis :=
  match lastKwGroup ("class").data line.data with
  | some g => { acc with classes := sinsert acc.classes (String.mk g) }
  | none => acc

/-- The interface block of the line loop. -/
def analyze_interface (line : String) (acc : ProjectAnalysis) : ProjectAnalysis :=
  match lastKwGroup ("interface").data line.data with
  | some g => { acc with interfaces := sinsert acc.interfaces (String.mk g) }
  | none => acc

/-- The method block of the line loop: append only below 100 entries and
when the name is not a reserved control-flow word. -/
def analyze_method (relPath line : String) (acc : ProjectAnalysis) : ProjectAnalysis :=
  match methodGroup line.data with
  | some g =>
    if acc.methods.length < 100 && !(reservedWords.contains (String.mk g)) then
      { acc with methods := acc.methods ++ [(String.mk g, relPath)] }
    else acc
  | none => acc

/-- The per-line body of `_analyze_cs_file`'s loop: strip the line, then run
the five blocks in source order on the shared accumulator. -/
def analyze_line (relPath : String) (acc : ProjectAnalysis) (raw : String) : ProjectAnalysis :=
  let line := pyStrip raw
  analyze_method relPath line
    (analyze_interface line (analyze_class line (analyze_namespace line (analyze_using line acc))))

/-- `_analyze_cs_file(file_path, analysis)`: line loop over the file's
content; a file that cannot be read is skipped silently (`except: pass`). -/
def analyze_cs_file (relPath : String) (f : FileEntry) (acc : ProjectAnalysis) : ProjectAnalysis :=
  if f.readable then (pySplitLines f.content).foldl (analyze_line relPath) acc
  else acc

/-- The per-file body of `analyze_project_structure`'s loop: `.cs` files are
analyzed, `.csproj`/`.sln` files are recorded by path; no other filter is
applied (neither `_should_include_file` nor the size ceiling). -/
def analyze_file_step (acc : ProjectAnalysis) (entry : List String × FileEntry) : ProjectAnalysis :=
  let f := entry.2
  if pyLower (pySuffix f.name) == ".cs" then
    analyze_cs_file (relStr entry.1 f.name) f acc
  else if pyLower (pySuffix f.name) == ".csproj" || pyLower (pySuffix f.name) == ".sln" then
    { acc with project_files := acc.project_files ++ [relStr entry.1 f.name] }
  else acc

/-- The accumulator after walking the whole tree. -/
def analyze_core (cfg : CSharpCodeSearcher) : ProjectAnalysis :=
  (walkFiles cfg).foldl analyze_file_step {}

/-- `analyze_project_structure()`: full walk (a missing root walks nothing
and yields an empty analysis — no error), then export with the method list
truncated to the first 50 entries. -/
def analyze_project_structure (cfg : CSharpCodeSearcher) : ProjectAnalysis :=
  let a := analyze_core cfg
  { a with methods := a.methods.take 50 }

/-! ## `get_file_content` -/

/-- Resolving `self.code_folder_path / file_path` in the tree, by path
components.  `get_file_content` applies no admission or skip filtering —
any existing path resolves. -/
def findFile : DirTree → List String → Option FileEntry
  | _, [] => none
  | .node _ _ files, [leaf] => files.find? (fun f => f.name == leaf)
  | .node _ subdirs _, c :: rest =>
    match subdirs.find? (fun d => d.dname == c) with
    | some d => findFile d rest
    | none => none

/-- The dictionary returned by `get_file_content`.  The textual
`content`/`raw_content` fields (line-numbered rendering) are not modelled:
no claim mentions them. -/
structure FileContentResult where
  error : Option String := none
  file : String := ""
  total_lines : Nat := 0
  showing_lines : Nat := 0
  truncated : Bool := false
deriving Repr, DecidableEq

/-- `get_file_content(file_path, max_lines)`: a structured error record for
a missing path or unreadable file, otherwise `readlines`, truncate to
`max_lines`, and report whether truncation occurred. -/
def get_file_content (cfg : CSharpCodeSearcher) (filePath : String) (maxLines : Nat) :
    FileContentResult :=
  let resolved :=
    match cfg.root with
    | none => none
    | some t => findFile t ((splitOnCharC '/' filePath.data).map String.mk)
  match resolved with
  | none => { error := some ("File not found: " ++ filePath) }
  | some f =>
    if f.readable then
      let lines := pyReadlines f.content
      { error := none, file := filePath, total_lines := lines.length,
        showing_lines := (lines.take maxLines).length,
        truncated := decide (maxLines < lines.length) }
    else { error := some "Failed to read file" }

/-! ## Derived notions used in the statements of the theorems -/

/-- Number of match records a file contributes in one `search_code` run. -/
def fileMatchCount (q st : String) (cs : Bool) (ctx : Nat) (e : List String × FileEntry) : Nat :=
  (search_in_file e.2.content (relStr e.1 e.2.name) e.2.name q st cs ctx).length

/-- The files of a walk that `search_code` can process: admitted by
`_should_include_file` and readable. -/
def processable (cfg : CSharpCodeSearcher) (l : List (List String × FileEntry)) :
    List (List String × FileEntry) :=
  l.filter (fun e => should_include_file cfg e.2 && e.2.readable)

/-- The invariant of the `analyze` accumulator: method list capped at 100,
set-like fields duplicate-free. -/
def analysisInv (a : ProjectAnalysis) : Prop :=
  a.methods.length ≤ 100 ∧ a.namespaces.Nodup ∧ a.classes.Nodup ∧ a.interfaces.Nodup

/-- The sublist of `l` with 1-based positions `a` through `b` (inclusive). -/
def oneBasedSlice (l : List String) (a b : Nat) : List String :=
  (l.drop (a - 1)).take (b + 1 - a)

/-- The class-mode per-line test of `_search_in_file`: some class pattern
`re.search`-matches the line (`flags = re.IGNORECASE` unless case
sensitive). -/
def classLineMatch (caseSensitive : Bool) (query line : String) : Bool :=
  (get_search_patterns query "class").any (fun p => reSearch (!caseSensitive) p line)

/-- The last character of `l`, or the fallback `d` when `l` is empty: the
"previous character" after consuming `l`. -/
def lastOpt : List Char → Option Char → Option Char
  | [], d => d
  | x :: xs, _ => lastOpt xs (some x)

/-- Modelled from the spec's words (C3), for comparison with the code's
`classLineMatch`: a line matches class mode iff one of the keywords
`class`, `interface`, `struct`, `enum`, standing at a word boundary, is
immediately followed by whitespace and then the literal query as a whole
word.  Characters are compared with the case rule of the search
(`charEq (!caseSensitive)`). -/
def specClassMatch (caseSensitive : Bool) (query line : String) : Prop :=
  ∃ kw ∈ (["class", "interface", "struct", "enum"] : List String),
    ∃ pre kws ws qs rest : List Char,
      line.data = pre ++ kws ++ ws ++ qs ++ rest ∧
      List.Forall₂ (fun a b => charEq (!caseSensitive) a b = true) kw.data kws ∧
      ws ≠ [] ∧ (∀ c ∈ ws, pyIsSpace c = true) ∧
      List.Forall₂ (fun a b => charEq (!caseSensitive) a b = true) query.data qs ∧
      (∀ c, pre.getLast? = some c → pyIsWordChar c = false) ∧
      (∀ c, rest.head? = some c → pyIsWordChar c = false)

/-! ## Concrete configurations used by the claim-level scenarios -/

/-- A configuration whose root path does not exist. -/
def cfgMissing : CSharpCodeSearcher :=
  { root := none, skip_folders := [], file_extensions := [".cs"], max_file_size_bytes := 1000 }

/-- A `.cs` file of 100 bytes, above the 10-byte ceiling of `cfgBig`. -/
def bigCs : FileEntry :=
  { name := "Big.cs", content := "class Bar", size := 100 }

/-- Configuration whose allowed extensions are only `.txt` and whose size
ceiling is 10 bytes; its root holds only `bigCs`. -/
def cfgBig : CSharpCodeSearcher :=
  { root := some (.node "proj" [] [bigCs]), skip_folders := [],
    file_extensions := [".txt"], max_file_size_bytes := 10 }

/-- `src/Foo.cs` of the skip-fragment scenario. -/
def fooCs : FileEntry :=
  { name := "Foo.cs", content := "namespace App.Models
public class Foo", size := 100 }

/-- `bin/Generated.cs` of the skip-fragment scenario. -/
def barCs : FileEntry :=
  { name := "Generated.cs", content := "class Bar", size := 100 }

/-- The skip-fragment scenario: root `proj` with `src/Foo.cs` and
`bin/Generated.cs`, skip fragment `bin`. -/
def cfgScenario : CSharpCodeSearcher :=
  { root := some (.node "proj" [.node "src" [] [fooCs], .node "bin" [] [barCs]] []),
    skip_folders := ["bin"], file_extensions := [".cs"], max_file_size_bytes := 1000000 }

/-- A small admissible file directly in the root. -/
def aCs : FileEntry :=
  { name := "a.cs", content := "class Foo", size := 4 }

/-- A configuration whose root directory is itself named `bin` while `bin`
is a configured skip fragment. -/
def cfgRootBin : CSharpCodeSearcher :=
  { root := some (.node "bin" [] [aCs]), skip_folders := ["bin"],
    file_extensions := [".cs"], max_file_size_bytes := 1000 }

/-- A one-line file whose content is `x`. -/
def fx (n : String) : FileEntry :=
  { name := n, content := "x", size := 1 }

/-- Three files in walk order, each with one `content` match for `x`. -/
def cfg3 : CSharpCodeSearcher :=
  { root := some (.node "r" [] [fx "a.cs", fx "b.cs", fx "c.cs"]), skip_folders := [],
    file_extensions := [".cs"], max_file_size_bytes := 10 }

/-- A single file with two lines `x` / `x` (two matches in one file). -/
def f2x : FileEntry :=
  { name := "d.cs", content := "x\nx", size := 3 }

/-- Configuration holding only `f2x`. -/
def cfg9 : CSharpCodeSearcher :=
  { root := some (.node "r" [] [f2x]), skip_folders := [],
    file_extensions := [".cs"], max_file_size_bytes := 10 }

/-- A file whose only line is `public interface IUserRepository`. -/
def iurCs : FileEntry :=
  { name := "A.cs", content := "public interface IUserRepository", size := 32 }

/-- Configuration holding only `iurCs`. -/
def cfgIUR : CSharpCodeSearcher :=
  { root := some (.node "r" [] [iurCs]), skip_folders := [],
    file_extensions := [".cs"], max_file_size_bytes := 1000 }


/-! ## Theorems: matcher evaluation lemmas

Fuel-stability of `matchToksF` and, from it, one-step unfolding equations
for `matchToks`. -/

theorem matchToksF_stable (ci : Bool) :
    ∀ f g toks prev s, toks.length + s.length < f → toks.length + s.length < g →
      matchToksF ci f toks prev s = matchToksF ci g toks prev s := by
  intro f
  induction f with
  | zero => intro g toks prev s h; omega
  | succ f ih =>
    intro g toks prev s hf hg
    match g, hg with
    | g + 1, hg' =>
      match toks with
      | [] => rfl
      | .lit c :: ps =>
        match s with
        | [] => rfl
        | x :: xs =>
          simp only [matchToksF]
          rw [ih g ps (some x) xs (by simp at hf ⊢; omega) (by simp at hg' ⊢; omega)]
      | .wb :: ps =>
        simp only [matchToksF]
        rw [ih g ps prev s (by simp at hf ⊢; omega) (by simp at hg' ⊢; omega)]
      | .sstar :: ps =>
        match s with
        | [] =>
          simp only [matchToksF]
          rw [ih g ps prev [] (by simp at hf ⊢; omega) (by simp at hg' ⊢; omega)]
        | x :: xs =>
          simp only [matchToksF]
          rw [ih g ps prev (x :: xs) (by simp at hf ⊢; omega) (by simp at hg' ⊢; omega),
            ih g (.sstar :: ps) (some x) xs (by simp at hf ⊢; omega) (by simp at hg' ⊢; omega)]
      | .splus :: ps =>
        match s with
        | [] => rfl
        | x :: xs =>
          simp only [matchToksF]
          rw [ih g (.sstar :: ps) (some x) xs (by simp at hf ⊢; omega) (by simp at hg' ⊢; omega)]
      | .dotStar :: ps =>
        match s with
        | [] =>
          simp only [matchToksF]
          rw [ih g ps prev [] (by simp at hf ⊢; omega) (by simp at hg' ⊢; omega)]
        | x :: xs =>
          simp only [matchToksF]
          rw [ih g ps prev (x :: xs) (by simp at hf ⊢; omega) (by simp at hg' ⊢; omega),
            ih g (.dotStar :: ps) (some x) xs (by simp at hf ⊢; omega) (by simp at hg' ⊢; omega)]

/-- One-step unfolding of the fuelled matcher, per token shape. -/
theorem matchToksF_lit_cons (ci : Bool) (f : Nat) (c : Char) (ps : List RTok)
    (prev : Option Char) (x : Char) (xs : List Char) :
    matchToksF ci (f + 1) (.lit c :: ps) prev (x :: xs) =
      (charEq ci c x && matchToksF ci f ps (some x) xs) := rfl

theorem matchToksF_wb (ci : Bool) (f : Nat) (ps : List RTok) (prev : Option Char)
    (s : List Char) :
    matchToksF ci (f + 1) (.wb :: ps) prev s =
      (isBoundaryAt prev s.head? && matchToksF ci f ps prev s) := rfl

theorem matchToksF_sstar_nil (ci : Bool) (f : Nat) (ps : List RTok) (prev : Option Char) :
    matchToksF ci (f + 1) (.sstar :: ps) prev [] = (matchToksF ci f ps prev [] || false) := rfl

theorem matchToksF_sstar_cons (ci : Bool) (f : Nat) (ps : List RTok) (prev : Option Char)
    (x : Char) (xs : List Char) :
    matchToksF ci (f + 1) (.sstar :: ps) prev (x :: xs) =
      (matchToksF ci f ps prev (x :: xs) ||
        (pyIsSpace x && matchToksF ci f (.sstar :: ps) (some x) xs)) := rfl

theorem matchToksF_splus_cons (ci : Bool) (f : Nat) (ps : List RTok) (prev : Option Char)
    (x : Char) (xs : List Char) :
    matchToksF ci (f + 1) (.splus :: ps) prev (x :: xs) =
      (pyIsSpace x && matchToksF ci f (.sstar :: ps) (some x) xs) := rfl

theorem matchToksF_dotStar_nil (ci : Bool) (f : Nat) (ps : List RTok) (prev : Option Char) :
    matchToksF ci (f + 1) (.dotStar :: ps) prev [] = (matchToksF ci f ps prev [] || false) := rfl

theorem matchToksF_dotStar_cons (ci : Bool) (f : Nat) (ps : List RTok) (prev : Option Char)
    (x : Char) (xs : List Char) :
    matchToksF ci (f + 1) (.dotStar :: ps) prev (x :: xs) =
      (matchToksF ci f ps prev (x :: xs) ||
        ((x != '\n') && matchToksF ci f (.dotStar :: ps) (some x) xs)) := rfl

theorem matchToks_eq_fuel (ci : Bool) (f : Nat) (toks : List RTok) (prev : Option Char)
    (s : List Char) (h : toks.length + s.length < f) :
    matchToks ci toks prev s = matchToksF ci f toks prev s :=
  matchToksF_stable ci _ f toks prev s (by omega) h

theorem matchToks_nil (ci : Bool) (prev : Option Char) (s : List Char) :
    matchToks ci [] prev s = true := by
  unfold matchToks
  cases s <;> rfl

theorem matchToks_lit_nil (ci : Bool) (c : Char) (ps : List RTok) (prev : Option Char) :
    matchToks ci (.lit c :: ps) prev [] = false := rfl

theorem matchToks_lit_cons (ci : Bool) (c : Char) (ps : List RTok) (prev : Option Char)
    (x : Char) (xs : List Char) :
    matchToks ci (.lit c :: ps) prev (x :: xs) =
      (charEq ci c x && matchToks ci ps (some x) xs) := by
  unfold matchToks
  rw [matchToksF_lit_cons]
  rw [matchToksF_stable ci ((RTok.lit c :: ps).length + (x :: xs).length)
    (ps.length + xs.length + 1) ps (some x) xs (by simp; omega) (by omega)]

theorem matchToks_wb (ci : Bool) (ps : List RTok) (prev : Option Char) (s : List Char) :
    matchToks ci (.wb :: ps) prev s =
      (isBoundaryAt prev s.head? && matchToks ci ps prev s) := by
  unfold matchToks
  rw [matchToksF_wb]
  rw [matchToksF_stable ci ((RTok.wb :: ps).length + s.length)
    (ps.length + s.length + 1) ps prev s (by simp) (by omega)]

theorem matchToks_sstar_nil (ci : Bool) (ps : List RTok) (prev : Option Char) :
    matchToks ci (.sstar :: ps) prev [] = matchToks ci ps prev [] := by
  unfold matchToks
  rw [matchToksF_sstar_nil]
  rw [matchToksF_stable ci ((RTok.sstar :: ps).length + ([] : List Char).length)
    (ps.length + ([] : List Char).length + 1) ps prev [] (by simp) (by simp)]
  simp

theorem matchToks_sstar_cons (ci : Bool) (ps : List RTok) (prev : Option Char)
    (x : Char) (xs : List Char) :
    matchToks ci (.sstar :: ps) prev (x :: xs) =
      (matchToks ci ps prev (x :: xs) ||
        (pyIsSpace x && matchToks ci (.sstar :: ps) (some x) xs)) := by
  unfold matchToks
  rw [matchToksF_sstar_cons]
  rw [matchToksF_stable ci ((RTok.sstar :: ps).length + (x :: xs).length)
    (ps.length + (x :: xs).length + 1) ps prev (x :: xs) (by simp) (by simp)]
  rw [matchToksF_stable ci ((RTok.sstar :: ps).length + (x :: xs).length)
    ((RTok.sstar :: ps).length + xs.length + 1) (.sstar :: ps) (some x) xs (by simp) (by simp)]

theorem matchToks_splus_nil (ci : Bool) (ps : List RTok) (prev : Option Char) :
    matchToks ci (.splus :: ps) prev [] = false := rfl

theorem matchToks_splus_cons (ci : Bool) (ps : List RTok) (prev : Option Char)
    (x : Char) (xs : List Char) :
    matchToks ci (.splus :: ps) prev (x :: xs) =
      (pyIsSpace x && matchToks ci (.sstar :: ps) (some x) xs) := by
  unfold matchToks
  rw [matchToksF_splus_cons]
  rw [matchToksF_stable ci ((RTok.splus :: ps).length + (x :: xs).length)
    ((RTok.sstar :: ps).length + xs.length + 1) (.sstar :: ps) (some x) xs (by simp) (by simp)]

theorem matchToks_dotStar_nil (ci : Bool) (ps : List RTok) (prev : Option Char) :
    matchToks ci (.dotStar :: ps) prev [] = matchToks ci ps prev [] := by
  unfold matchToks
  rw [matchToksF_dotStar_nil]
  rw [matchToksF_stable ci ((RTok.dotStar :: ps).length + ([] : List Char).length)
    (ps.length + ([] : List Char).length + 1) ps prev [] (by simp) (by simp)]
  simp

theorem matchToks_dotStar_cons (ci : Bool) (ps : List RTok) (prev : Option Char)
    (x : Char) (xs : List Char) :
    matchToks ci (.dotStar :: ps) prev (x :: xs) =
      (matchToks ci ps prev (x :: xs) ||
        ((x != '\n') && matchToks ci (.dotStar :: ps) (some x) xs)) := by
  unfold matchToks
  rw [matchToksF_dotStar_cons]
  rw [matchToksF_stable ci ((RTok.dotStar :: ps).length + (x :: xs).length)
    (ps.length + (x :: xs).length + 1) ps prev (x :: xs) (by simp) (by simp)]
  rw [matchToksF_stable ci ((RTok.dotStar :: ps).length + (x :: xs).length)
    ((RTok.dotStar :: ps).length + xs.length + 1) (.dotStar :: ps) (some x) xs (by simp) (by simp)]


/-! ## C1 — missing root behaviour -/

/-- C1 (counterexample): on a configuration whose root path does not exist,
`search_code` does not fail with `NotFoundError` — it returns a well-formed
result with `total_matches = 0`, an empty result list and no error, and
`analyze_project_structure` likewise returns an empty analysis with no
error: the missing root is silently swallowed into an empty result,
contradicting the claim for the search and analyze operations. -/
theorem C1_counterexample :
    (search_code cfgMissing "x" "content" false 20 3).error = none ∧
    (search_code cfgMissing "x" "content" false 20 3).total_matches = 0 ∧
    (search_code cfgMissing "x" "content" false 20 3).results = [] ∧
    (analyze_project_structure cfgMissing).error = none ∧
    analyze_project_structure cfgMissing = {} := by
  refine ⟨rfl, rfl, rfl, rfl, rfl⟩

/-- C1 (amended): when the root path does not exist, only `scan_codebase`
fails with the surfaced `FileNotFoundError`; `search_code` and
`analyze_project_structure` silently return empty, error-free results
(`os.walk` of a missing root yields nothing). -/
theorem C1_missing_root (cfg : CSharpCodeSearcher) (h : cfg.root = none)
    (q st : String) (cs : Bool) (maxR ctx : Nat) :
    scan_codebase cfg = Except.error "FileNotFoundError: Code folder not found" ∧
    search_code cfg q st cs maxR ctx =
      { query := q, search_type := st, total_matches := 0, results := [], error := none } ∧
    analyze_project_structure cfg = {} := by
  refine ⟨?_, ?_, ?_⟩
  · unfold scan_codebase
    rw [h]
  · simp [search_code, search_core, walkFiles, h, searchLoop]
  · simp [analyze_project_structure, analyze_core, walkFiles, h]

/-- C1 (witness): `C1_missing_root` applied to the concrete missing-root
configuration. -/
theorem C1_missing_root_witness :
    scan_codebase cfgMissing = Except.error "FileNotFoundError: Code folder not found" ∧
    search_code cfgMissing "x" "content" false 20 3 =
      { query := "x", search_type := "content", total_matches := 0, results := [],
        error := none } ∧
    analyze_project_structure cfgMissing = {} :=
  C1_missing_root cfgMissing rfl "x" "content" false 20 3

/-! ## C8 — `get_file_content` round trip -/

/-- C8: for a resolvable, readable file and `maxLines` at least the file's
line count, `get_file_content` reports `truncated = false` and both the
shown and total line counts equal the file's actual line count. -/
theorem C8_roundtrip (cfg : CSharpCodeSearcher) (t : DirTree) (f : FileEntry)
    (path : String) (maxLines : Nat)
    (hroot : cfg.root = some t)
    (hfind : findFile t ((splitOnCharC '/' path.data).map String.mk) = some f)
    (hread : f.readable = true)
    (hN : (pyReadlines f.content).length ≤ maxLines) :
    (get_file_content cfg path maxLines).truncated = false ∧
    (get_file_content cfg path maxLines).showing_lines = (pyReadlines f.content).length ∧
    (get_file_content cfg path maxLines).total_lines = (pyReadlines f.content).length := by
  unfold get_file_content
  rw [hroot]
  simp only [hfind, hread, if_true]
  refine ⟨?_, ?_, by trivial⟩
  · simp only [decide_eq_false_iff_not, not_lt]
    exact hN
  · simp only [List.length_take]
    omega

/-- C8 (witness): the round trip on the concrete two-line file `d.cs` with
`maxLines = 5`. -/
theorem C8_roundtrip_witness :
    (get_file_content cfg9 "d.cs" 5).truncated = false ∧
    (get_file_content cfg9 "d.cs" 5).showing_lines = (pyReadlines f2x.content).length ∧
    (get_file_content cfg9 "d.cs" 5).total_lines = (pyReadlines f2x.content).length :=
  C8_roundtrip cfg9 (.node "r" [] [f2x]) f2x "d.cs" 5 rfl rfl rfl (by decide)

/-! ## C10 — unrecognized search types -/

/-- Helper: for a `search_type` outside the five recognized modes,
`_search_in_file` matches nothing in any file. -/
theorem search_in_file_unknown (content relPath fileName q st : String) (cs : Bool) (ctx : Nat)
    (h : st ∉ ["content", "filename", "class", "method", "variable"]) :
    search_in_file content relPath fileName q st cs ctx = [] := by
  simp only [List.mem_cons, List.mem_singleton, not_or] at h
  obtain ⟨h1, h2, h3, h4, h5⟩ := h
  unfold search_in_file
  rw [if_neg (by simpa using h2)]
  rw [if_neg (by simp [h1, h3, h4, h5])]

/-- Helper: when no file produces matches, the search loop accumulates
nothing. -/
theorem searchLoop_acc_of_empty (cfg : CSharpCodeSearcher) (q st : String) (cs : Bool)
    (maxR ctx : Nat)
    (hsif : ∀ c r n, search_in_file c r n q st cs ctx = []) :
    ∀ l acc, (searchLoop cfg q st cs maxR ctx acc l).1 = acc := by
  intro l
  induction l with
  | nil => intro acc; rfl
  | cons e rest ih =>
    intro acc
    obtain ⟨dirs, f⟩ := e
    unfold searchLoop
    by_cases h1 : should_include_file cfg f
    · by_cases h2 : f.readable
      · simp only [h1, h2, if_true, hsif, List.append_nil]
        by_cases h3 : maxR ≤ acc.length
        · simp [h3]
        · simp [h3, ih]
      · simp [h1, h2, ih]
    · simp [h1, ih]

/-- C10: a `search_type` outside {content, filename, class, method,
variable} does not fail: `search_code` returns a well-formed result with
`total_matches = 0`, an empty result list and no error field. -/
theorem C10_unknown_search_type (cfg : CSharpCodeSearcher) (q st : String) (cs : Bool)
    (maxR ctx : Nat)
    (h : st ∉ ["content", "filename", "class", "method", "variable"]) :
    search_code cfg q st cs maxR ctx =
      { query := q, search_type := st, total_matches := 0, results := [], error := none } := by
  have hsif : ∀ c r n, search_in_file c r n q st cs ctx = [] :=
    fun c r n => search_in_file_unknown c r n q st cs ctx h
  have hloop := searchLoop_acc_of_empty cfg q st cs maxR ctx hsif (walkFiles cfg) []
  unfold search_code search_core
  simp [hloop]

/-- C10 (witness): the unknown mode `banana` on a populated tree. -/
theorem C10_unknown_search_type_witness :
    search_code cfg9 "x" "banana" false 20 3 =
      { query := "x", search_type := "banana", total_matches := 0, results := [],
        error := none } :=
  C10_unknown_search_type cfg9 "x" "banana" false 20 3 (by decide)

/-! ## C9 — `total_matches` versus the `max_results` cap -/

/-- Helper: the accumulated record count equals the starting count plus the
per-file match counts of the files actually read. -/
theorem searchLoop_total (cfg : CSharpCodeSearcher) (q st : String) (cs : Bool)
    (maxR ctx : Nat) :
    ∀ l acc, (searchLoop cfg q st cs maxR ctx acc l).1.length =
      acc.length +
        (((searchLoop cfg q st cs maxR ctx acc l).2).map (fileMatchCount q st cs ctx)).sum := by
  intro l
  induction l with
  | nil => intro acc; simp [searchLoop]
  | cons e rest ih =>
    intro acc
    obtain ⟨dirs, f⟩ := e
    unfold searchLoop
    by_cases h1 : should_include_file cfg f
    · by_cases h2 : f.readable
      · simp only [h1, h2, if_true]
        by_cases h3 : maxR ≤ acc.length +
            (search_in_file f.content (relStr dirs f.name) f.name q st cs ctx).length
        · rw [if_pos (by simpa using h3)]
          simp [fileMatchCount]
        · rw [if_neg (by simpa using h3)]
          simp only [List.map_cons, List.sum_cons]
          rw [ih]
          simp [fileMatchCount]
          omega
      · simp [h1, h2, ih]
    · simp [h1, ih]

/-- C9: `total_matches` is the total number of records accumulated over the
processed files (the sum of per-file match counts over the files actually
read), not the truncated list's length; and on the concrete one-file tree
with two matching lines and `max_results = 1` it strictly exceeds
`max_results`, because the cap is only checked after each whole file. -/
theorem C9_total_matches (cfg : CSharpCodeSearcher) (q st : String) (cs : Bool)
    (maxR ctx : Nat) :
    (search_code cfg q st cs maxR ctx).total_matches =
      (((search_core cfg q st cs maxR ctx).2).map (fileMatchCount q st cs ctx)).sum ∧
    (search_code cfg q st cs maxR ctx).results.length ≤
      (search_code cfg q st cs maxR ctx).total_matches ∧
    (search_code cfg9 "x" "content" false 1 0).total_matches = 2 ∧
    (search_code cfg9 "x" "content" false 1 0).results.length = 1 := by
  refine ⟨?_, ?_, by decide, by decide⟩
  · have := searchLoop_total cfg q st cs maxR ctx (walkFiles cfg) []
    simpa [search_code, search_core] using this
  · simp only [search_code, List.length_take]
    omega

/-! ## C6 — the context window -/

/-- C6: every content-mode match record (line number `i ≥ 1`) carries as
context exactly the lines with 1-based numbers `max(1, i - c)` through
`min(L, i + c)` of the file, and its `context_start_line` is
`max(1, i - c)`. -/
theorem C6_context_window (content relPath fileName q st : String) (cs : Bool) (ctx : Nat)
    (rec : MatchRecord)
    (hmem : rec ∈ search_in_file content relPath fileName q st cs ctx)
    (hln : rec.line_number ≠ 0) :
    rec.context_start_line = max 1 (rec.line_number - ctx) ∧
    rec.context = oneBasedSlice (pySplitLines content) (max 1 (rec.line_number - ctx))
      (min (pySplitLines content).length (rec.line_number + ctx)) := by
  unfold search_in_file at hmem
  by_cases hf : st == "filename"
  · rw [if_pos hf] at hmem
    split at hmem
    · simp only [List.mem_singleton] at hmem
      subst hmem
      exact absurd rfl hln
    · exact absurd hmem (List.not_mem_nil rec)
  · rw [if_neg hf] at hmem
    by_cases hc : (["content", "class", "method", "variable"] : List String).contains st
    · rw [if_pos hc] at hmem
      rw [List.mem_filterMap] at hmem
      obtain ⟨⟨i, line⟩, hil, hfn⟩ := hmem
      have hi : 1 ≤ i := by
        have := (List.mk_mem_enumFrom_iff_le_and_getElem?_sub).mp hil
        exact this.1
      split at hfn
      · rw [Option.some_inj] at hfn
        subst hfn
        constructor
        · simp only
          omega
        · simp only [oneBasedSlice]
          have e1 : i - 1 - ctx = max 1 (i - ctx) - 1 := by omega
          rw [e1]
          congr 1
          omega
      · exact absurd hfn (by simp)
    · rw [if_neg hc] at hmem
      exact absurd hmem (List.not_mem_nil rec)

/-- C6 (witness): the context window of the single match of `x` in the
four-line file `a\nx\nb\nc` with one context line. -/
theorem C6_context_window_witness :
    ({ file := "f", type := "content", line_number := 2, matchText := "x",
       context := ["a", "x", "b"], context_start_line := 1 } : MatchRecord).context_start_line =
        max 1 (2 - 1) ∧
    ({ file := "f", type := "content", line_number := 2, matchText := "x",
       context := ["a", "x", "b"], context_start_line := 1 } : MatchRecord).context =
      oneBasedSlice (pySplitLines "a\nx\nb\nc") (max 1 (2 - 1))
        (min (pySplitLines "a\nx\nb\nc").length (2 + 1)) :=
  C6_context_window "a\nx\nb\nc" "f" "f" "x" "content" false 1
    { file := "f", type := "content", line_number := 2, matchText := "x",
      context := ["a", "x", "b"], context_start_line := 1 }
    (by decide) (by decide)

/-! ## C7 — analyzer bounds and set-ness -/

/-- Helper: inserting into a duplicate-free list keeps it duplicate-free. -/
theorem sinsert_nodup (l : List String) (x : String) (h : l.Nodup) : (sinsert l x).Nodup := by
  unfold sinsert
  by_cases hm : x ∈ l
  · rw [if_pos (by simpa [List.elem_iff] using hm)]
    exact h
  · rw [if_neg (by simpa [List.elem_iff] using hm)]
    simp [List.nodup_append, h, hm]

/-- Helper: the first four blocks never touch the method list. -/
theorem pre_method_methods (line : String) (a : ProjectAnalysis) :
    (analyze_interface line (analyze_class line (analyze_namespace line
      (analyze_using line a)))).methods = a.methods := by
  unfold analyze_interface analyze_class analyze_namespace analyze_using
  repeat' split
  all_goals rfl

/-- Helper: the first four blocks act on each set-like field at most by one
`sinsert`. -/
theorem pre_method_sets (line : String) (a : ProjectAnalysis) :
    ((analyze_interface line (analyze_class line (analyze_namespace line
        (analyze_using line a)))).namespaces = a.namespaces ∨
      ∃ s, (analyze_interface line (analyze_class line (analyze_namespace line
        (analyze_using line a)))).namespaces = sinsert a.namespaces s) ∧
    ((analyze_interface line (analyze_class line (analyze_namespace line
        (analyze_using line a)))).classes = a.classes ∨
      ∃ s, (analyze_interface line (analyze_class line (analyze_namespace line
        (analyze_using line a)))).classes = sinsert a.classes s) ∧
    ((analyze_interface line (analyze_class line (analyze_namespace line
        (analyze_using line a)))).interfaces = a.interfaces ∨
      ∃ s, (analyze_interface line (analyze_class line (analyze_namespace line
        (analyze_using line a)))).interfaces = sinsert a.interfaces s) := by
  unfold analyze_interface analyze_class analyze_namespace analyze_using
  repeat' split
  all_goals simp

/-- Helper: one analyzed line either leaves the method list unchanged or,
only when it is strictly below 100 entries, appends one descriptor. -/
theorem analyze_line_methods (rel raw : String) (a : ProjectAnalysis) :
    (analyze_line rel a raw).methods = a.methods ∨
    (a.methods.length < 100 ∧ ∃ m, (analyze_line rel a raw).methods = a.methods ++ [m]) := by
  simp only [analyze_line, analyze_method]
  have hp := pre_method_methods (pyStrip raw) a
  cases hm : methodGroup (pyStrip raw).data with
  | none => left; exact hp
  | some g =>
    dsimp only
    by_cases hc : (decide ((analyze_interface (pyStrip raw) (analyze_class (pyStrip raw)
        (analyze_namespace (pyStrip raw) (analyze_using (pyStrip raw) a)))).methods.length < 100)
        && !(reservedWords.contains (String.mk g))) = true
    · rw [if_pos hc]
      right
      simp only [Bool.and_eq_true, decide_eq_true_eq] at hc
      have hlt := hc.1
      rw [hp] at hlt
      exact ⟨hlt, (String.mk g, rel), by simp only [hp]⟩
    · rw [if_neg hc]
      left
      exact hp

/-- Helper: one analyzed line leaves `namespaces` unchanged or `sinsert`s
one name; likewise for `classes` and `interfaces`. -/
theorem analyze_line_sets (rel raw : String) (a : ProjectAnalysis) :
    ((analyze_line rel a raw).namespaces = a.namespaces ∨
      ∃ s, (analyze_line rel a raw).namespaces = sinsert a.namespaces s) ∧
    ((analyze_line rel a raw).classes = a.classes ∨
      ∃ s, (analyze_line rel a raw).classes = sinsert a.classes s) ∧
    ((analyze_line rel a raw).interfaces = a.interfaces ∨
      ∃ s, (analyze_line rel a raw).interfaces = sinsert a.interfaces s) := by
  simp only [analyze_line, analyze_method]
  have hp := pre_method_sets (pyStrip raw) a
  split
  · split
    · exact hp
    · exact hp
  · exact hp

/-- Helper: the accumulator invariant is preserved by one line. -/
theorem analyze_line_inv (rel raw : String) (a : ProjectAnalysis) (h : analysisInv a) :
    analysisInv (analyze_line rel a raw) := by
  obtain ⟨h1, h2, h3, h4⟩ := h
  obtain ⟨hn, hc, hi⟩ := analyze_line_sets rel raw a
  refine ⟨?_, ?_, ?_, ?_⟩
  · rcases analyze_line_methods rel raw a with hm | ⟨hlt, m, hm⟩
    · rw [hm]; exact h1
    · rw [hm]; simp; omega
  · rcases hn with hn | ⟨s, hn⟩
    · rw [hn]; exact h2
    · rw [hn]; exact sinsert_nodup _ _ h2
  · rcases hc with hc | ⟨s, hc⟩
    · rw [hc]; exact h3
    · rw [hc]; exact sinsert_nodup _ _ h3
  · rcases hi with hi | ⟨s, hi⟩
    · rw [hi]; exact h4
    · rw [hi]; exact sinsert_nodup _ _ h4

/-- Helper: the invariant is preserved by a whole-file line fold. -/
theorem foldl_analyze_line_inv (rel : String) (lines : List String) :
    ∀ a, analysisInv a → analysisInv (lines.foldl (analyze_line rel) a) := by
  induction lines with
  | nil => intro a h; exact h
  | cons x xs ih => intro a h; exact ih _ (analyze_line_inv rel x a h)

/-- Helper: the invariant is preserved by one file of the analyze walk. -/
theorem analyze_file_step_inv (e : List String × FileEntry) (a : ProjectAnalysis)
    (h : analysisInv a) : analysisInv (analyze_file_step a e) := by
  obtain ⟨dirs, f⟩ := e
  simp only [analyze_file_step, analyze_cs_file]
  by_cases h1 : (pyLower (pySuffix f.name) == ".cs") = true
  · rw [if_pos h1]
    by_cases h2 : f.readable = true
    · rw [if_pos h2]
      exact foldl_analyze_line_inv _ _ a h
    · rw [if_neg h2]
      exact h
  · rw [if_neg h1]
    by_cases h3 : (pyLower (pySuffix f.name) == ".csproj" ||
        pyLower (pySuffix f.name) == ".sln") = true
    · rw [if_pos h3]
      exact h
    · rw [if_neg h3]
      exact h

/-- Helper: the accumulator of a whole `analyze` run satisfies the
invariant. -/
theorem analyze_core_inv (cfg : CSharpCodeSearcher) : analysisInv (analyze_core cfg) := by
  unfold analyze_core
  have : ∀ (l : List (List String × FileEntry)) (a : ProjectAnalysis), analysisInv a →
      analysisInv (l.foldl analyze_file_step a) := by
    intro l
    induction l with
    | nil => intro a h; exact h
    | cons e rest ih => intro a h; exact ih _ (analyze_file_step_inv e a h)
  exact this (walkFiles cfg) {} ⟨by simp, by simp, by simp, by simp⟩

/-- C7: the accumulated method list never exceeds 100 entries — a line
analyzed at an accumulator already holding 100 descriptors appends nothing
and raises no error — the exported method list has at most 50 entries, and
the exported `namespaces`, `classes` and `interfaces` collections are
duplicate-free. -/
theorem C7_analysis_bounds (cfg : CSharpCodeSearcher) (rel raw : String) (a : ProjectAnalysis)
    (ha : a.methods.length ≤ 100) :
    (analyze_line rel a raw).methods.length ≤ 100 ∧
    (a.methods.length = 100 → (analyze_line rel a raw).methods = a.methods) ∧
    (analyze_core cfg).methods.length ≤ 100 ∧
    (analyze_project_structure cfg).methods.length ≤ 50 ∧
    (analyze_project_structure cfg).namespaces.Nodup ∧
    (analyze_project_structure cfg).classes.Nodup ∧
    (analyze_project_structure cfg).interfaces.Nodup := by
  obtain ⟨g1, g2, g3, g4⟩ := analyze_core_inv cfg
  refine ⟨?_, ?_, g1, ?_, ?_, ?_, ?_⟩
  · rcases analyze_line_methods rel raw a with hm | ⟨hlt, m, hm⟩
    · rw [hm]; exact ha
    · rw [hm]; simp; omega
  · intro h100
    rcases analyze_line_methods rel raw a with hm | ⟨hlt, m, hm⟩
    · exact hm
    · omega
  · simp only [analyze_project_structure, List.length_take]
    omega
  · simpa [analyze_project_structure] using g2
  · simpa [analyze_project_structure] using g3
  · simpa [analyze_project_structure] using g4

/-- C7 (witness): the bounds at the empty accumulator and the concrete
scenario configuration. -/
theorem C7_analysis_bounds_witness :
    (analyze_line "f" {} "x").methods.length ≤ 100 ∧
    (({} : ProjectAnalysis).methods.length = 100 →
      (analyze_line "f" {} "x").methods = ({} : ProjectAnalysis).methods) ∧
    (analyze_core cfgScenario).methods.length ≤ 100 ∧
    (analyze_project_structure cfgScenario).methods.length ≤ 50 ∧
    (analyze_project_structure cfgScenario).namespaces.Nodup ∧
    (analyze_project_structure cfgScenario).classes.Nodup ∧
    (analyze_project_structure cfgScenario).interfaces.Nodup :=
  C7_analysis_bounds cfgScenario "f" "x" {} (by decide)

/-! ## C2 — extension and size admission -/

/-- Helper: every record produced by `_search_in_file` carries the file's
relative path. -/
theorem search_in_file_file (content relPath fileName q st : String) (cs : Bool) (ctx : Nat) :
    ∀ rec ∈ search_in_file content relPath fileName q st cs ctx, rec.file = relPath := by
  intro rec hmem
  unfold search_in_file at hmem
  split at hmem
  · split at hmem
    · simp only [List.mem_singleton] at hmem
      subst hmem
      rfl
    · exact absurd hmem (List.not_mem_nil rec)
  · split at hmem
    · rw [List.mem_filterMap] at hmem
      obtain ⟨⟨i, line⟩, hil, hfn⟩ := hmem
      split at hfn
      · rw [Option.some_inj] at hfn
        subst hfn
        rfl
      · exact absurd hfn (by simp)
    · exact absurd hmem (List.not_mem_nil rec)

/-- Helper: every record accumulated by the search loop comes from the
starting accumulator or from a file of the walk that passed
`_should_include_file`. -/
theorem searchLoop_mem (cfg : CSharpCodeSearcher) (q st : String) (cs : Bool) (maxR ctx : Nat) :
    ∀ l acc rec, rec ∈ (searchLoop cfg q st cs maxR ctx acc l).1 →
      rec ∈ acc ∨ ∃ e, e ∈ l ∧ should_include_file cfg e.2 = true ∧
        rec ∈ search_in_file e.2.content (relStr e.1 e.2.name) e.2.name q st cs ctx := by
  intro l
  induction l with
  | nil => intro acc rec h; exact Or.inl h
  | cons en rest ih =>
    intro acc rec h
    obtain ⟨dirs, f⟩ := en
    unfold searchLoop at h
    by_cases h1 : should_include_file cfg f = true
    · rw [if_pos h1] at h
      by_cases h2 : f.readable = true
      · rw [if_pos h2] at h
        dsimp only at h
        split at h
        · dsimp only at h
          rw [List.mem_append] at h
          rcases h with h | h
          · exact Or.inl h
          · exact Or.inr ⟨(dirs, f), List.mem_cons_self _ _, h1, h⟩
        · dsimp only at h
          rcases ih _ rec h with h | ⟨e, he, hinc, hrec⟩
          · rw [List.mem_append] at h
            rcases h with h | h
            · exact Or.inl h
            · exact Or.inr ⟨(dirs, f), List.mem_cons_self _ _, h1, h⟩
          · exact Or.inr ⟨e, List.mem_cons_of_mem _ he, hinc, hrec⟩
      · rw [if_neg h2] at h
        rcases ih _ rec h with h | ⟨e, he, hinc, hrec⟩
        · exact Or.inl h
        · exact Or.inr ⟨e, List.mem_cons_of_mem _ he, hinc, hrec⟩
    · rw [if_neg h1] at h
      rcases ih _ rec h with h | ⟨e, he, hinc, hrec⟩
      · exact Or.inl h
      · exact Or.inr ⟨e, List.mem_cons_of_mem _ he, hinc, hrec⟩

/-- Helper: `upsert` preserves a predicate holding of all recorded paths. -/
theorem upsert_paths (Q : String → Prop) (ext p : String) (hp : Q p) :
    ∀ summary, (∀ e ps, (e, ps) ∈ summary → ∀ x ∈ ps, Q x) →
      ∀ e ps, (e, ps) ∈ upsert summary ext p → ∀ x ∈ ps, Q x := by
  intro summary
  induction summary with
  | nil =>
    intro hs e ps h x hx
    simp only [upsert, List.mem_singleton, Prod.mk.injEq] at h
    obtain ⟨he, hps⟩ := h
    subst hps
    rw [List.mem_singleton] at hx
    subst hx
    exact hp
  | cons hd tl ih =>
    obtain ⟨e0, ps0⟩ := hd
    intro hs e ps h x hx
    unfold upsert at h
    by_cases hc : (e0 == ext) = true
    · rw [if_pos hc] at h
      rcases List.mem_cons.mp h with h | h
      · rw [Prod.mk.injEq] at h
        obtain ⟨he, hps⟩ := h
        subst hps
        rw [List.mem_append] at hx
        rcases hx with hx | hx
        · exact hs e0 ps0 (List.mem_cons_self _ _) x hx
        · rw [List.mem_singleton] at hx
          subst hx
          exact hp
      · exact hs e ps (List.mem_cons_of_mem _ h) x hx
    · rw [if_neg hc] at h
      rcases List.mem_cons.mp h with h | h
      · rw [Prod.mk.injEq] at h
        obtain ⟨he, hps⟩ := h
        rw [hps] at hx
        exact hs e0 ps0 (List.mem_cons_self _ _) x hx
      · exact ih (fun e' ps' hm => hs e' ps' (List.mem_cons_of_mem _ hm)) e ps h x hx

/-- Helper: every path recorded by the scan loop satisfies any predicate
holding of the relative paths of the admitted files of the walk. -/
theorem scanLoop_paths (cfg : CSharpCodeSearcher) (Q : String → Prop) :
    ∀ l summary total,
      (∀ e ps, (e, ps) ∈ summary → ∀ x ∈ ps, Q x) →
      (∀ en ∈ l, should_include_file cfg en.2 = true → Q (relStr en.1 en.2.name)) →
      ∀ e ps, (e, ps) ∈ (scanLoop cfg l (summary, total)).1 → ∀ x ∈ ps, Q x := by
  intro l
  induction l with
  | nil => intro summary total hs hl e ps h x hx; exact hs e ps h x hx
  | cons en rest ih =>
    intro summary total hs hl e ps h x hx
    obtain ⟨dirs, f⟩ := en
    unfold scanLoop at h
    by_cases hc : should_include_file cfg f = true
    · rw [if_pos hc] at h
      exact ih _ _
        (upsert_paths Q _ _ (hl (dirs, f) (List.mem_cons_self _ _) hc) summary hs)
        (fun en hm => hl en (List.mem_cons_of_mem _ hm)) e ps h x hx
    · rw [if_neg hc] at h
      exact ih _ _ hs (fun en hm => hl en (List.mem_cons_of_mem _ hm)) e ps h x hx

/-- Helper: what admission means: the lower-cased suffix is among the
lower-cased configured extensions, the size is at most the ceiling, and
`stat` succeeded. -/
theorem should_include_file_spec (cfg : CSharpCodeSearcher) (f : FileEntry)
    (h : should_include_file cfg f = true) :
    pyLower (pySuffix f.name) ∈ cfg.file_extensions.map pyLower ∧
    f.size ≤ cfg.max_file_size_bytes ∧ f.stat_ok = true := by
  unfold should_include_file at h
  simp only [Bool.and_eq_true, List.any_eq_true, decide_eq_true_eq] at h
  obtain ⟨⟨ext, hext, heq⟩, hstat, hsize⟩ := h
  refine ⟨?_, hsize, hstat⟩
  rw [List.mem_map]
  exact ⟨ext, hext, (beq_iff_eq.mp heq).symm⟩

/-- C2 (counterexample): `analyze_project_structure` does not respect the
configured admission filter: with allowed extensions `{.txt}` and a 10-byte
ceiling, the 100-byte file `Big.cs` — rejected by `_should_include_file` —
still contributes class `Bar` to the analyze result, so a file above the
size ceiling (and outside the configured extension set) appears in a
result, contradicting the claim for the analyze operation. -/
theorem C2_counterexample :
    (analyze_project_structure cfgBig).classes = ["Bar"] ∧
    should_include_file cfgBig bigCs = false ∧
    cfgBig.max_file_size_bytes < bigCs.size ∧
    pyLower (pySuffix bigCs.name) ∉ cfgBig.file_extensions.map pyLower := by
  refine ⟨rfl, rfl, by decide, by decide⟩

/-- C2 (amended): for `scan_codebase` and `search_code`, every file that
contributes to the returned result passed `_should_include_file`, whose
success means the lower-cased extension is in the configured set
(compared lower-cased) and the size is at most the ceiling;
`analyze_project_structure` applies no such filter (it hardcodes
`.cs`/`.csproj`/`.sln` and ignores the size ceiling, see
`C2_counterexample`). -/
theorem C2_admitted_files (cfg : CSharpCodeSearcher) (q st : String) (cs : Bool)
    (maxR ctx : Nat) :
    (∀ rec ∈ (search_code cfg q st cs maxR ctx).results,
      ∃ e, e ∈ walkFiles cfg ∧ should_include_file cfg e.2 = true ∧
        rec.file = relStr e.1 e.2.name) ∧
    (∀ t res, cfg.root = some t → scan_codebase cfg = Except.ok res →
      ∀ ext ps, (ext, ps) ∈ res.summary → ∀ p ∈ ps,
        ∃ e, e ∈ walkFiles cfg ∧ should_include_file cfg e.2 = true ∧
          p = relStr e.1 e.2.name) ∧
    (∀ f : FileEntry, should_include_file cfg f = true →
      pyLower (pySuffix f.name) ∈ cfg.file_extensions.map pyLower ∧
      f.size ≤ cfg.max_file_size_bytes) := by
  refine ⟨?_, ?_, ?_⟩
  · intro rec hrec
    have hrec' : rec ∈ (search_core cfg q st cs maxR ctx).1 := List.take_subset _ _ hrec
    rcases searchLoop_mem cfg q st cs maxR ctx (walkFiles cfg) [] rec hrec' with
      h | ⟨e, he, hinc, hrec2⟩
    · exact absurd h (List.not_mem_nil rec)
    · exact ⟨e, he, hinc, search_in_file_file _ _ _ _ _ _ _ rec hrec2⟩
  · intro t res hroot hscan ext ps hmem p hp
    unfold scan_codebase at hscan
    rw [hroot] at hscan
    rw [Except.ok.injEq] at hscan
    have hsum : res.summary = (scanLoop cfg (walkDir cfg [] t) ([], 0)).1 := by
      rw [← hscan]
    rw [hsum] at hmem
    refine scanLoop_paths cfg
      (fun x => ∃ e, e ∈ walkFiles cfg ∧ should_include_file cfg e.2 = true ∧
        x = relStr e.1 e.2.name)
      (walkDir cfg [] t) [] 0 (by intro e' ps' h'; exact absurd h' (List.not_mem_nil _)) ?_
      ext ps hmem p hp
    intro en hm hc
    refine ⟨en, ?_, hc, rfl⟩
    unfold walkFiles
    rw [hroot]
    exact hm
  · intro f hf
    have h := should_include_file_spec cfg f hf
    exact ⟨h.1, h.2.1⟩

/-- C2 (witness): the admitted scenario file `src/Foo.cs` has its
lower-cased extension in the configured set and respects the ceiling. -/
theorem C2_admitted_files_witness :
    pyLower (pySuffix fooCs.name) ∈ cfgScenario.file_extensions.map pyLower ∧
    fooCs.size ≤ cfgScenario.max_file_size_bytes :=
  (C2_admitted_files cfgScenario "x" "content" false 20 3).2.2 fooCs (by decide)

/-! ## C4 — skip-fragment pruning -/

mutual

/-- Helper (mutual): every directory component below the walk's starting
prefix passed the skip test. -/
theorem walkDir_no_skip (cfg : CSharpCodeSearcher) (pfx : List String) (t : DirTree) :
    ∀ e ∈ walkDir cfg pfx t, ∀ c ∈ e.1, c ∈ pfx ∨ should_skip_folder cfg c = false := by
  match t with
  | .node n subdirs files =>
    intro e he c hc
    unfold walkDir at he
    rw [List.mem_append] at he
    rcases he with he | he
    · rw [List.mem_map] at he
      obtain ⟨f, _, hf⟩ := he
      rw [← hf] at hc
      exact Or.inl hc
    · exact walkDirs_no_skip cfg pfx subdirs e he c hc

theorem walkDirs_no_skip (cfg : CSharpCodeSearcher) (pfx : List String) (ds : List DirTree) :
    ∀ e ∈ walkDirs cfg pfx ds, ∀ c ∈ e.1, c ∈ pfx ∨ should_skip_folder cfg c = false := by
  match ds with
  | [] =>
    intro e he
    exact absurd he (List.not_mem_nil e)
  | d :: rest =>
    intro e he c hc
    unfold walkDirs at he
    rw [List.mem_append] at he
    rcases he with he | he
    · by_cases hskip : should_skip_folder cfg d.dname = true
      · rw [if_pos hskip] at he
        exact absurd he (List.not_mem_nil e)
      · rw [if_neg hskip] at he
        rcases walkDir_no_skip cfg (pfx ++ [d.dname]) d e he c hc with h | h
        · rw [List.mem_append] at h
          rcases h with h | h
          · exact Or.inl h
          · rw [List.mem_singleton] at h
            subst h
            exact Or.inr (by simpa using hskip)
        · exact Or.inr h
    · exact walkDirs_no_skip cfg pfx rest e he c hc

end

/-- C4 (counterexample): the root directory's own base name is never tested
against the skip fragments: with root named `bin` and skip fragment `bin`,
the file `a.cs` under directory `bin` still appears in the scan result. -/
theorem C4_counterexample :
    scan_codebase cfgRootBin =
      Except.ok { summary := [(".cs", ["a.cs"])], total_files := 1, project_root := "bin" } ∧
    should_skip_folder cfgRootBin "bin" = true :=
  ⟨rfl, rfl⟩

/-- C4 (amended): below the root, pruning is complete — no walked file
(hence, by the provenance facts of `C2_admitted_files` and the fact that
`analyze` folds over the same walk, no file contributing to any scan,
search or analyze result) lies under a proper subdirectory whose name
matches a skip fragment; the root directory's own name is exempt.  The
concrete scenario behaves as claimed: with skip fragment `bin`, analyze
over `src/Foo.cs` and `bin/Generated.cs` yields namespaces `App.Models`,
classes `Foo`, and never `Bar`. -/
theorem C4_skip_fragment (cfg : CSharpCodeSearcher) :
    (∀ e ∈ walkFiles cfg, ∀ c ∈ e.1, should_skip_folder cfg c = false) ∧
    (analyze_project_structure cfgScenario).namespaces = ["App.Models"] ∧
    (analyze_project_structure cfgScenario).classes = ["Foo"] ∧
    "Bar" ∉ (analyze_project_structure cfgScenario).classes := by
  refine ⟨?_, rfl, rfl, by decide⟩
  intro e he c hc
  unfold walkFiles at he
  cases hroot : cfg.root with
  | none =>
    rw [hroot] at he
    exact absurd he (List.not_mem_nil e)
  | some t =>
    rw [hroot] at he
    rcases walkDir_no_skip cfg [] t e he c hc with h | h
    · exact absurd h (List.not_mem_nil c)
    · exact h

/-- C4 (witness): the walked scenario file `src/Foo.cs` lies only under
directories that pass the skip test. -/
theorem C4_skip_fragment_witness :
    should_skip_folder cfgScenario "src" = false :=
  (C4_skip_fragment cfgScenario).1 (["src"], fooCs) (by decide) "src" (by decide)

/-! ## C5 — the `max_results` cap and early termination -/

/-- Helper: the files read by the search loop form a prefix of the
processable (admitted and readable) files of the walk, in walk order. -/
theorem searchLoop_reads_prefix (cfg : CSharpCodeSearcher) (q st : String) (cs : Bool)
    (maxR ctx : Nat) :
    ∀ l acc, ∃ rest, processable cfg l =
      (searchLoop cfg q st cs maxR ctx acc l).2 ++ rest := by
  intro l
  induction l with
  | nil => intro acc; exact ⟨[], rfl⟩
  | cons en r ih =>
    intro acc
    obtain ⟨dirs, f⟩ := en
    by_cases h1 : should_include_file cfg f = true
    · by_cases h2 : f.readable = true
      · have hp : processable cfg ((dirs, f) :: r) = (dirs, f) :: processable cfg r := by
          simp [processable, h1, h2]
        unfold searchLoop
        rw [if_pos h1, if_pos h2]
        dsimp only
        by_cases h3 : maxR ≤
            (acc ++ search_in_file f.content (relStr dirs f.name) f.name q st cs ctx).length
        · rw [if_pos h3, hp]
          exact ⟨processable cfg r, rfl⟩
        · rw [if_neg h3, hp]
          obtain ⟨rest, hrest⟩ :=
            ih (acc ++ search_in_file f.content (relStr dirs f.name) f.name q st cs ctx)
          rw [hrest]
          exact ⟨rest, rfl⟩
      · have hp : processable cfg ((dirs, f) :: r) = processable cfg r := by
          simp [processable, h1, h2]
        unfold searchLoop
        rw [if_pos h1, if_neg h2, hp]
        exact ih acc
    · have hp : processable cfg ((dirs, f) :: r) = processable cfg r := by
        simp [processable, h1]
      unfold searchLoop
      rw [if_neg h1, hp]
      exact ih acc

/-- Helper: every file except possibly the last was read only while the
accumulated count was still below the cap. -/
theorem searchLoop_below_cap (cfg : CSharpCodeSearcher) (q st : String) (cs : Bool)
    (maxR ctx : Nat) :
    ∀ l acc i, i + 1 < (searchLoop cfg q st cs maxR ctx acc l).2.length →
      acc.length + ((((searchLoop cfg q st cs maxR ctx acc l).2).take (i + 1)).map
        (fileMatchCount q st cs ctx)).sum < maxR := by
  intro l
  induction l with
  | nil =>
    intro acc i hi
    simp [searchLoop] at hi
  | cons en r ih =>
    intro acc i hi
    obtain ⟨dirs, f⟩ := en
    unfold searchLoop at hi ⊢
    by_cases h1 : should_include_file cfg f = true
    · rw [if_pos h1] at hi ⊢
      by_cases h2 : f.readable = true
      · rw [if_pos h2] at hi ⊢
        dsimp only at hi ⊢
        by_cases h3 : maxR ≤
            (acc ++ search_in_file f.content (relStr dirs f.name) f.name q st cs ctx).length
        · rw [if_pos h3] at hi
          simp at hi
        · rw [if_neg h3] at hi ⊢
          dsimp only at hi ⊢
          match i with
          | 0 =>
            simp only [List.take_succ_cons, List.take_zero, List.map_cons, List.map_nil,
              List.sum_cons, List.sum_nil, fileMatchCount]
            simp only [List.length_append, not_le] at h3
            omega
          | j + 1 =>
            have hj := ih (acc ++ search_in_file f.content (relStr dirs f.name) f.name
              q st cs ctx) j (by simpa using hi)
            simp only [List.take_succ_cons, List.map_cons, List.sum_cons, fileMatchCount]
            simp only [List.length_append] at hj
            omega
      · rw [if_neg h2] at hi ⊢
        exact ih acc i hi
    · rw [if_neg h1] at hi ⊢
      exact ih acc i hi

/-- Helper: the loop stops before exhausting the processable files only
when the accumulated count has reached the cap. -/
theorem searchLoop_stop_cap (cfg : CSharpCodeSearcher) (q st : String) (cs : Bool)
    (maxR ctx : Nat) :
    ∀ l acc, (searchLoop cfg q st cs maxR ctx acc l).2.length < (processable cfg l).length →
      maxR ≤ acc.length + (((searchLoop cfg q st cs maxR ctx acc l).2).map
        (fileMatchCount q st cs ctx)).sum := by
  intro l
  induction l with
  | nil =>
    intro acc h
    simp [searchLoop, processable] at h
  | cons en r ih =>
    intro acc h
    obtain ⟨dirs, f⟩ := en
    unfold searchLoop at h ⊢
    by_cases h1 : should_include_file cfg f = true
    · rw [if_pos h1] at h ⊢
      by_cases h2 : f.readable = true
      · have hp : processable cfg ((dirs, f) :: r) = (dirs, f) :: processable cfg r := by
          simp [processable, h1, h2]
        rw [if_pos h2] at h ⊢
        dsimp only at h ⊢
        by_cases h3 : maxR ≤
            (acc ++ search_in_file f.content (relStr dirs f.name) f.name q st cs ctx).length
        · rw [if_pos h3]
          simp only [List.map_cons, List.map_nil, List.sum_cons, List.sum_nil,
            fileMatchCount]
          simp only [List.length_append] at h3
          omega
        · rw [if_neg h3] at h ⊢
          dsimp only at h ⊢
          rw [hp] at h
          simp only [List.length_cons] at h
          have := ih (acc ++ search_in_file f.content (relStr dirs f.name) f.name q st cs ctx)
            (by omega)
          simp only [List.length_append] at this
          simp only [List.map_cons, List.sum_cons, fileMatchCount]
          omega
      · have hp : processable cfg ((dirs, f) :: r) = processable cfg r := by
          simp [processable, h1, h2]
        rw [if_neg h2] at h ⊢
        rw [hp] at h
        exact ih acc h
    · have hp : processable cfg ((dirs, f) :: r) = processable cfg r := by
        simp [processable, h1]
      rw [if_neg h1] at h ⊢
      rw [hp] at h
      exact ih acc h

/-- Helper: `scan_codebase` counts every admitted file of the full walk —
it has no cap and never stops early. -/
theorem scanLoop_total_files (cfg : CSharpCodeSearcher) :
    ∀ l summary total, (scanLoop cfg l (summary, total)).2 =
      total + (l.filter (fun e => should_include_file cfg e.2)).length := by
  intro l
  induction l with
  | nil => intro summary total; simp [scanLoop]
  | cons en r ih =>
    intro summary total
    obtain ⟨dirs, f⟩ := en
    unfold scanLoop
    by_cases h1 : should_include_file cfg f = true
    · rw [if_pos h1]
      rw [ih]
      simp [h1]
      omega
    · rw [if_neg h1]
      rw [ih]
      simp [h1]

/-- Helper: no line-analysis block touches `project_files`. -/
theorem analyze_line_project_files (rel raw : String) (a : ProjectAnalysis) :
    (analyze_line rel a raw).project_files = a.project_files := by
  simp only [analyze_line, analyze_method, analyze_interface, analyze_class, analyze_namespace,
    analyze_using]
  repeat' split
  all_goals rfl

/-- Helper: analyzing a `.cs` file leaves `project_files` unchanged. -/
theorem analyze_cs_file_project_files (rel : String) (f : FileEntry) (a : ProjectAnalysis) :
    (analyze_cs_file rel f a).project_files = a.project_files := by
  unfold analyze_cs_file
  split
  · have : ∀ (lines : List String) (a0 : ProjectAnalysis),
        (lines.foldl (analyze_line rel) a0).project_files = a0.project_files := by
      intro lines
      induction lines with
      | nil => intro a0; rfl
      | cons x xs ih =>
        intro a0
        rw [List.foldl_cons, ih, analyze_line_project_files]
    exact this _ a
  · rfl

/-- Helper: `analyze` records exactly the `.csproj`/`.sln` files of the
full walk, in walk order — it never terminates early. -/
theorem analyze_core_project_files (cfg : CSharpCodeSearcher) :
    (analyze_core cfg).project_files = ((walkFiles cfg).filter (fun e =>
      pyLower (pySuffix e.2.name) == ".csproj" || pyLower (pySuffix e.2.name) == ".sln")).map
      (fun e => relStr e.1 e.2.name) := by
  unfold analyze_core
  have main : ∀ (l : List (List String × FileEntry)) (a : ProjectAnalysis),
      (l.foldl analyze_file_step a).project_files = a.project_files ++
        (l.filter (fun e => pyLower (pySuffix e.2.name) == ".csproj" ||
          pyLower (pySuffix e.2.name) == ".sln")).map (fun e => relStr e.1 e.2.name) := by
    intro l
    induction l with
    | nil => intro a; simp
    | cons en r ih =>
      intro a
      obtain ⟨dirs, f⟩ := en
      rw [List.foldl_cons]
      rw [ih]
      unfold analyze_file_step
      dsimp only
      by_cases h1 : (pyLower (pySuffix f.name) == ".cs") = true
      · rw [if_pos h1]
        have hpred : (pyLower (pySuffix f.name) == ".csproj" ||
            pyLower (pySuffix f.name) == ".sln") = false := by
          rw [beq_iff_eq] at h1
          rw [h1]
          rfl
        rw [analyze_cs_file_project_files]
        simp [List.filter_cons, hpred]
      · rw [if_neg h1]
        by_cases h2 : (pyLower (pySuffix f.name) == ".csproj" ||
            pyLower (pySuffix f.name) == ".sln") = true
        · rw [if_pos h2]
          simp only [List.filter_cons, h2, List.map_cons]
          simp
        · rw [if_neg h2]
          have h2f : (pyLower (pySuffix f.name) == ".csproj" ||
              pyLower (pySuffix f.name) == ".sln") = false := by
            simpa using h2
          simp [List.filter_cons, h2f]
  rw [main]
  simp

/-- C5: the returned result list never exceeds `max_results`; the files
read by `search_code` form a prefix of the processable files of the walk;
every read file except possibly the last was read with the accumulated
count still below the cap, and if the loop stopped before exhausting the
processable files then the accumulated count had reached the cap (i.e.
traversal stops right after the first file that brings the count to
`max_results`, and later files are never read).  `scan_codebase` counts
every admitted file of the full walk and `analyze_project_structure`
records every `.csproj`/`.sln` file of the full walk: neither takes or
respects `max_results`.  On the concrete three-file tree with
`max_results = 1`, exactly one record is returned and only the first file
is ever read. -/
theorem C5_cap_and_early_stop (cfg : CSharpCodeSearcher) (q st : String) (cs : Bool)
    (maxR ctx : Nat) :
    (search_code cfg q st cs maxR ctx).results.length ≤ maxR ∧
    (∃ rest, processable cfg (walkFiles cfg) = (search_core cfg q st cs maxR ctx).2 ++ rest) ∧
    (∀ i, i + 1 < (search_core cfg q st cs maxR ctx).2.length →
      (((search_core cfg q st cs maxR ctx).2.take (i + 1)).map
        (fileMatchCount q st cs ctx)).sum < maxR) ∧
    ((search_core cfg q st cs maxR ctx).2.length < (processable cfg (walkFiles cfg)).length →
      maxR ≤ (((search_core cfg q st cs maxR ctx).2).map (fileMatchCount q st cs ctx)).sum) ∧
    (∀ res, scan_codebase cfg = Except.ok res →
      res.total_files = ((walkFiles cfg).filter (fun e => should_include_file cfg e.2)).length) ∧
    (analyze_core cfg).project_files = ((walkFiles cfg).filter (fun e =>
      pyLower (pySuffix e.2.name) == ".csproj" || pyLower (pySuffix e.2.name) == ".sln")).map
      (fun e => relStr e.1 e.2.name) ∧
    (search_code cfg3 "x" "content" false 1 0).results.length = 1 ∧
    (search_core cfg3 "x" "content" false 1 0).2 = [([], fx "a.cs")] := by
  refine ⟨?_, ?_, ?_, ?_, ?_, analyze_core_project_files cfg, by decide, by decide⟩
  · simp only [search_code, List.length_take]
    omega
  · exact searchLoop_reads_prefix cfg q st cs maxR ctx (walkFiles cfg) []
  · intro i hi
    have := searchLoop_below_cap cfg q st cs maxR ctx (walkFiles cfg) [] i hi
    simpa [search_core] using this
  · intro h
    have := searchLoop_stop_cap cfg q st cs maxR ctx (walkFiles cfg) [] h
    simpa [search_core] using this
  · intro res hres
    cases hroot : cfg.root with
    | none =>
      unfold scan_codebase at hres
      rw [hroot] at hres
      exact absurd hres (by simp)
    | some t =>
      unfold scan_codebase at hres
      rw [hroot] at hres
      rw [Except.ok.injEq] at hres
      have : res.total_files = (scanLoop cfg (walkDir cfg [] t) ([], 0)).2 := by
        rw [← hres]
      rw [this, scanLoop_total_files]
      unfold walkFiles
      rw [hroot]
      simp

/-- C5 (witness): on the three-file tree the loop stops after the first
file — one file read out of three processable — so the cap must have been
reached. -/
theorem C5_cap_and_early_stop_witness :
    1 ≤ (((search_core cfg3 "x" "content" false 1 0).2).map
      (fileMatchCount "x" "content" false 0)).sum :=
  (C5_cap_and_early_stop cfg3 "x" "content" false 1 0).2.2.2.1 (by decide)

/-! ## C3 — class mode -/

theorem lastOpt_cons (x : Char) (xs : List Char) (d : Option Char) :
    lastOpt (x :: xs) d = lastOpt xs (some x) := rfl

theorem lastOpt_getLast : ∀ (xs : List Char) (x : Char) (d : Option Char),
    lastOpt (x :: xs) d = (x :: xs).getLast? := by
  intro xs
  induction xs with
  | nil => intro x d; rfl
  | cons y ys ih =>
    intro x d
    rw [lastOpt_cons, ih y (some x), List.getLast?_cons_cons]

theorem lastOpt_none : ∀ l : List Char, lastOpt l none = l.getLast? := by
  intro l
  cases l with
  | nil => rfl
  | cons x xs => exact lastOpt_getLast xs x none

/-- Helper: `Char.ofNat` of a valid code point. -/
theorem toNat_ofNat_valid (n : Nat) (h : n.isValidChar) : (Char.ofNat n).toNat = n := by
  unfold Char.ofNat
  rw [dif_pos h]
  rfl

/-- Helper: ASCII lower-casing preserves word-character-ness. -/
theorem pyToLower_word (c : Char) : pyIsWordChar (pyToLower c) = pyIsWordChar c := by
  unfold pyToLower
  by_cases h : (65 ≤ c.toNat && c.toNat ≤ 90) = true
  · rw [if_pos h]
    simp only [Bool.and_eq_true, decide_eq_true_eq] at h
    unfold pyIsWordChar
    rw [toNat_ofNat_valid (c.toNat + 32) (Or.inl (by omega))]
    rw [Bool.eq_iff_iff]
    simp only [Bool.or_eq_true, Bool.and_eq_true, decide_eq_true_eq, beq_iff_eq]
    constructor <;> intro <;> omega
  · rw [if_neg h]

/-- Helper: `charEq`-related characters agree on word-character-ness. -/
theorem charEq_word (ci : Bool) (a b : Char) (h : charEq ci a b = true) :
    pyIsWordChar a = pyIsWordChar b := by
  unfold charEq at h
  cases ci with
  | false =>
    rw [if_neg (by simp)] at h
    rw [beq_iff_eq] at h
    rw [h]
  | true =>
    rw [if_pos rfl] at h
    rw [beq_iff_eq] at h
    rw [← pyToLower_word a, ← pyToLower_word b, h]

/-- Helper: a `Forall₂`-related list of a nonempty list is nonempty. -/
theorem forall2_ne_nil {R : Char → Char → Prop} {u v : List Char}
    (h : List.Forall₂ R u v) (hu : u ≠ []) : v ≠ [] := by
  cases h with
  | nil => exact absurd rfl hu
  | cons _ _ => exact List.cons_ne_nil _ _

/-- Helper: heads of `Forall₂`-related lists are related. -/
theorem forall2_head {R : Char → Char → Prop} {u v : List Char}
    (h : List.Forall₂ R u v) (x : Char) (hx : u.head? = some x) :
    ∃ y, v.head? = some y ∧ R x y := by
  cases h with
  | nil => simp at hx
  | cons hab htail =>
    rw [List.head?_cons, Option.some_inj] at hx
    subst hx
    exact ⟨_, rfl, hab⟩

/-- Helper: last elements of `Forall₂`-related lists are related. -/
theorem forall2_getLast {R : Char → Char → Prop} :
    ∀ {u v : List Char}, List.Forall₂ R u v → ∀ x, u.getLast? = some x →
      ∃ y, v.getLast? = some y ∧ R x y := by
  intro u
  induction u with
  | nil => intro v h x hx; simp at hx
  | cons a u' ih =>
    intro v h x hx
    cases h with
    | cons hab htail =>
      rename_i b v'
      cases u' with
      | nil =>
        cases htail
        rw [List.getLast?_singleton, Option.some_inj] at hx
        subst hx
        exact ⟨b, rfl, hab⟩
      | cons a2 u2 =>
        have hv' : v' ≠ [] := forall2_ne_nil htail (by simp)
        obtain ⟨c, v2, rfl⟩ := List.exists_cons_of_ne_nil hv'
        rw [List.getLast?_cons_cons] at hx
        obtain ⟨y, hy, hr⟩ := ih htail x hx
        exact ⟨y, by rw [List.getLast?_cons_cons]; exact hy, hr⟩

/-- Helper: consuming an `re.escape`d literal: the pattern `lits w ++ ps`
matches here iff the subject starts with a `charEq`-copy of `w` and `ps`
matches after it. -/
theorem matchToks_lits (ci : Bool) (w : List Char) :
    ∀ (ps : List RTok) (prev : Option Char) (s : List Char),
      matchToks ci (w.map RTok.lit ++ ps) prev s = true ↔
        ∃ ws s', s = ws ++ s' ∧ List.Forall₂ (fun a b => charEq ci a b = true) w ws ∧
          matchToks ci ps (lastOpt ws prev) s' = true := by
  induction w with
  | nil =>
    intro ps prev s
    constructor
    · intro h
      exact ⟨[], s, rfl, List.Forall₂.nil, h⟩
    · rintro ⟨ws, s', hs, hf, hm⟩
      cases hf
      rw [List.nil_append] at hs
      subst hs
      exact hm
  | cons c w ih =>
    intro ps prev s
    rw [List.map_cons, List.cons_append]
    cases s with
    | nil =>
      rw [matchToks_lit_nil]
      constructor
      · intro h
        exact absurd h (by simp)
      · rintro ⟨ws, s', hs, hf, hm⟩
        cases hf with
        | cons hab htail => simp at hs
    | cons x xs =>
      rw [matchToks_lit_cons, Bool.and_eq_true, ih ps (some x) xs]
      constructor
      · rintro ⟨hce, ws', s', hs, hf, hm⟩
        refine ⟨x :: ws', s', by rw [hs, List.cons_append], List.Forall₂.cons hce hf, ?_⟩
        rwa [lastOpt_cons]
      · rintro ⟨ws, s', hs, hf, hm⟩
        cases hf with
        | cons hab htail =>
          rename_i b ws'
          rw [List.cons_append] at hs
          rw [List.cons.injEq] at hs
          obtain ⟨hx, hxs⟩ := hs
          subst hx
          rw [lastOpt_cons] at hm
          exact ⟨hab, ws', s', hxs, htail, hm⟩

/-- Helper: `\s*` absorbs an arbitrary (possibly empty) whitespace run. -/
theorem matchToks_sstar_iff (ci : Bool) (ps : List RTok) :
    ∀ (s : List Char) (prev : Option Char),
      matchToks ci (.sstar :: ps) prev s = true ↔
        ∃ ws s', s = ws ++ s' ∧ (∀ c ∈ ws, pyIsSpace c = true) ∧
          matchToks ci ps (lastOpt ws prev) s' = true := by
  intro s
  induction s with
  | nil =>
    intro prev
    rw [matchToks_sstar_nil]
    constructor
    · intro h
      exact ⟨[], [], rfl, by simp, h⟩
    · rintro ⟨ws, s', hs, hsp, hm⟩
      rw [List.nil_eq, List.append_eq_nil] at hs
      obtain ⟨h1, h2⟩ := hs
      subst h1
      subst h2
      exact hm
  | cons x xs ih =>
    intro prev
    rw [matchToks_sstar_cons, Bool.or_eq_true, Bool.and_eq_true]
    constructor
    · rintro (h | ⟨hsp, h⟩)
      · exact ⟨[], x :: xs, rfl, by simp, h⟩
      · obtain ⟨ws, s', hs, hsp', hm⟩ := (ih (some x)).mp h
        refine ⟨x :: ws, s', by rw [hs, List.cons_append], ?_, by rwa [lastOpt_cons]⟩
        intro c hc
        rcases List.mem_cons.mp hc with hc | hc
        · subst hc; exact hsp
        · exact hsp' c hc
    · rintro ⟨ws, s', hs, hsp, hm⟩
      cases ws with
      | nil =>
        rw [List.nil_append] at hs
        subst hs
        exact Or.inl hm
      | cons b ws' =>
        rw [List.cons_append, List.cons.injEq] at hs
        obtain ⟨hx, hxs⟩ := hs
        subst hx
        right
        refine ⟨hsp x (List.mem_cons_self _ _), ?_⟩
        rw [lastOpt_cons] at hm
        exact (ih (some x)).mpr ⟨ws', s', hxs, fun c hc => hsp c (List.mem_cons_of_mem _ hc), hm⟩

/-- Helper: `\s+` absorbs a nonempty whitespace run. -/
theorem matchToks_splus_iff (ci : Bool) (ps : List RTok) (prev : Option Char) (s : List Char) :
    matchToks ci (.splus :: ps) prev s = true ↔
      ∃ ws s', s = ws ++ s' ∧ ws ≠ [] ∧ (∀ c ∈ ws, pyIsSpace c = true) ∧
        matchToks ci ps (lastOpt ws prev) s' = true := by
  cases s with
  | nil =>
    rw [matchToks_splus_nil]
    constructor
    · intro h
      exact absurd h (by simp)
    · rintro ⟨ws, s', hs, hne, hsp, hm⟩
      rw [List.nil_eq, List.append_eq_nil] at hs
      exact absurd hs.1 hne
  | cons x xs =>
    rw [matchToks_splus_cons, Bool.and_eq_true, matchToks_sstar_iff]
    constructor
    · rintro ⟨hsp, ws, s', hs, hsp', hm⟩
      refine ⟨x :: ws, s', by rw [hs, List.cons_append], List.cons_ne_nil _ _, ?_,
        by rwa [lastOpt_cons]⟩
      intro c hc
      rcases List.mem_cons.mp hc with hc | hc
      · subst hc; exact hsp
      · exact hsp' c hc
    · rintro ⟨ws, s', hs, hne, hsp, hm⟩
      cases ws with
      | nil => exact absurd rfl hne
      | cons b ws' =>
        rw [List.cons_append, List.cons.injEq] at hs
        obtain ⟨hx, hxs⟩ := hs
        subst hx
        refine ⟨hsp x (List.mem_cons_self _ _), ws', s', hxs,
          fun c hc => hsp c (List.mem_cons_of_mem _ hc), ?_⟩
        rwa [lastOpt_cons] at hm

/-- Helper: `re.search` semantics — the pattern matches at some split
position of the subject. -/
theorem searchFrom_iff (ci : Bool) (p : List RTok) :
    ∀ (s : List Char) (prev : Option Char),
      searchFrom ci p prev s = true ↔
        ∃ pre suf, s = pre ++ suf ∧ matchToks ci p (lastOpt pre prev) suf = true := by
  intro s
  induction s with
  | nil =>
    intro prev
    unfold searchFrom
    constructor
    · intro h
      exact ⟨[], [], rfl, h⟩
    · rintro ⟨pre, suf, hs, hm⟩
      rw [List.nil_eq, List.append_eq_nil] at hs
      obtain ⟨h1, h2⟩ := hs
      subst h1
      subst h2
      exact hm
  | cons x xs ih =>
    intro prev
    unfold searchFrom
    rw [Bool.or_eq_true, ih (some x)]
    constructor
    · rintro (h | ⟨pre, suf, hs, hm⟩)
      · exact ⟨[], x :: xs, rfl, h⟩
      · exact ⟨x :: pre, suf, by rw [hs, List.cons_append], by rwa [lastOpt_cons]⟩
    · rintro ⟨pre, suf, hs, hm⟩
      cases pre with
      | nil =>
        rw [List.nil_append] at hs
        subst hs
        exact Or.inl hm
      | cons b pre' =>
        rw [List.cons_append, List.cons.injEq] at hs
        obtain ⟨hx, hxs⟩ := hs
        subst hx
        rw [lastOpt_cons] at hm
        exact Or.inr ⟨pre', suf, hxs, hm⟩

/-- Helper: a nonempty list has a last element. -/
theorem getLast?_of_ne_nil (l : List Char) (h : l ≠ []) : ∃ x, l.getLast? = some x := by
  cases l with
  | nil => exact absurd rfl h
  | cons a t => exact ⟨(a :: t).getLast (by simp), List.getLast?_eq_getLast _ _⟩

/-- Helper: on a nonempty list `lastOpt` ignores its fallback. -/
theorem lastOpt_of_ne_nil (l : List Char) (d : Option Char) (h : l ≠ []) :
    lastOpt l d = l.getLast? := by
  cases l with
  | nil => exact absurd rfl h
  | cons a t => exact lastOpt_getLast t a d

/-- Helper: the head of an append with nonempty left part. -/
theorem head?_append_some {l₁ l₂ : List Char} {y : Char} (h : l₁.head? = some y) :
    (l₁ ++ l₂).head? = some y := by
  cases l₁ with
  | nil => simp at h
  | cons a t => simpa using h

/-- Helper: a boundary whose right side is a word character forces a
non-word (or absent) left side. -/
theorem boundary_left_elim (prev next : Option Char) (y : Char)
    (hn : next = some y) (hw : pyIsWordChar y = true)
    (hb : isBoundaryAt prev next = true) :
    ∀ c, prev = some c → pyIsWordChar c = false := by
  intro c hc
  subst hc
  subst hn
  unfold isBoundaryAt at hb
  dsimp only at hb
  rw [hw] at hb
  cases hcw : pyIsWordChar c with
  | false => rfl
  | true =>
    rw [hcw] at hb
    exact absurd hb (by decide)

/-- Helper: a non-word (or absent) left side and a word right side form a
boundary. -/
theorem boundary_left_intro (prev next : Option Char) (y : Char)
    (hn : next = some y) (hw : pyIsWordChar y = true)
    (hp : ∀ c, prev = some c → pyIsWordChar c = false) :
    isBoundaryAt prev next = true := by
  subst hn
  unfold isBoundaryAt
  dsimp only
  rw [hw]
  cases prev with
  | none => rfl
  | some c =>
    dsimp only
    rw [hp c rfl]
    rfl

/-- Helper: a boundary whose left side is a word character forces a
non-word (or absent) right side. -/
theorem boundary_right_elim (prev next : Option Char) (y : Char)
    (hp : prev = some y) (hw : pyIsWordChar y = true)
    (hb : isBoundaryAt prev next = true) :
    ∀ c, next = some c → pyIsWordChar c = false := by
  intro c hc
  subst hc
  subst hp
  unfold isBoundaryAt at hb
  dsimp only at hb
  rw [hw] at hb
  cases hcw : pyIsWordChar c with
  | false => rfl
  | true =>
    rw [hcw] at hb
    exact absurd hb (by decide)

/-- Helper: a word left side and a non-word (or absent) right side form a
boundary. -/
theorem boundary_right_intro (prev next : Option Char) (y : Char)
    (hp : prev = some y) (hw : pyIsWordChar y = true)
    (hn : ∀ c, next = some c → pyIsWordChar c = false) :
    isBoundaryAt prev next = true := by
  subst hp
  unfold isBoundaryAt
  dsimp only
  rw [hw]
  cases next with
  | none => rfl
  | some c =>
    dsimp only
    rw [hn c rfl]
    rfl

/-- Helper: full characterization of one class-mode pattern
`\b kw \s+ query \b` under `re.search`: it matches a line iff the line
splits as `pre ++ kws ++ ws ++ qs ++ rest` with `kws` a case-rule copy of
the keyword preceded by no word character, `ws` a nonempty whitespace run,
`qs` a case-rule copy of the query followed by no word character.
Requires the keyword and query to be nonempty and word-characters-only
(true of the four keywords, and of any identifier-like query). -/
theorem class_pattern_iff (ci : Bool) (kw q : String)
    (hkw1 : kw.data ≠ []) (hkw2 : ∀ c ∈ kw.data, pyIsWordChar c = true)
    (hq1 : q.data ≠ []) (hq2 : ∀ c ∈ q.data, pyIsWordChar c = true)
    (line : String) :
    reSearch ci (.wb :: lits kw ++ .splus :: lits q ++ [.wb]) line = true ↔
      ∃ pre kws ws qs rest : List Char,
        line.data = pre ++ kws ++ ws ++ qs ++ rest ∧
        List.Forall₂ (fun a b => charEq ci a b = true) kw.data kws ∧
        ws ≠ [] ∧ (∀ c ∈ ws, pyIsSpace c = true) ∧
        List.Forall₂ (fun a b => charEq ci a b = true) q.data qs ∧
        (∀ c, pre.getLast? = some c → pyIsWordChar c = false) ∧
        (∀ c, rest.head? = some c → pyIsWordChar c = false) := by
  obtain ⟨k0, ktl, hk⟩ := List.exists_cons_of_ne_nil hkw1
  have hk0w : pyIsWordChar k0 = true := hkw2 k0 (by rw [hk]; exact List.mem_cons_self _ _)
  obtain ⟨xq, hxq⟩ := getLast?_of_ne_nil q.data hq1
  have hxqw : pyIsWordChar xq = true := hq2 xq (List.mem_of_mem_getLast? hxq)
  unfold reSearch lits
  rw [searchFrom_iff]
  constructor
  · rintro ⟨pre, suf, hsplit, hm⟩
    simp only [List.cons_append, List.append_assoc] at hm
    rw [matchToks_wb, Bool.and_eq_true] at hm
    obtain ⟨hb1, hm⟩ := hm
    rw [matchToks_lits] at hm
    obtain ⟨kws, s1, hsuf, hfkw, hm⟩ := hm
    rw [matchToks_splus_iff] at hm
    obtain ⟨ws, s2, hs1, hwne, hwsp, hm⟩ := hm
    rw [matchToks_lits] at hm
    obtain ⟨qs, s3, hs2, hfq, hm⟩ := hm
    rw [matchToks_wb, Bool.and_eq_true] at hm
    obtain ⟨hb2, _⟩ := hm
    have hy0 : ∃ y0, kws.head? = some y0 ∧ pyIsWordChar y0 = true := by
      obtain ⟨y0, hy0, hr⟩ := forall2_head hfkw k0 (by rw [hk]; rfl)
      exact ⟨y0, hy0, by rw [← charEq_word ci k0 y0 hr]; exact hk0w⟩
    obtain ⟨y0, hy0, hy0w⟩ := hy0
    have hyq : ∃ yq, qs.getLast? = some yq ∧ pyIsWordChar yq = true := by
      obtain ⟨yq, hyq, hr⟩ := forall2_getLast hfq xq hxq
      exact ⟨yq, hyq, by rw [← charEq_word ci xq yq hr]; exact hxqw⟩
    obtain ⟨yq, hyq, hyqw⟩ := hyq
    refine ⟨pre, kws, ws, qs, s3, ?_, hfkw, hwne, hwsp, hfq, ?_, ?_⟩
    · rw [hsplit, hsuf, hs1, hs2]
      simp [List.append_assoc]
    · intro c hc
      refine boundary_left_elim (lastOpt pre none) suf.head? y0 ?_ hy0w hb1 c ?_
      · rw [hsuf]
        exact head?_append_some hy0
      · rw [lastOpt_none]
        exact hc
    · intro c hc
      have hqs_ne : qs ≠ [] := forall2_ne_nil hfq hq1
      refine boundary_right_elim (lastOpt qs (lastOpt ws (lastOpt kws (lastOpt pre none))))
        s3.head? yq ?_ hyqw hb2 c ?_
      · rw [lastOpt_of_ne_nil qs _ hqs_ne]
        exact hyq
      · rw [hc]
  · rintro ⟨pre, kws, ws, qs, rest, hsplit, hfkw, hwne, hwsp, hfq, hpre, hrest⟩
    have hy0 : ∃ y0, kws.head? = some y0 ∧ pyIsWordChar y0 = true := by
      obtain ⟨y0, hy0, hr⟩ := forall2_head hfkw k0 (by rw [hk]; rfl)
      exact ⟨y0, hy0, by rw [← charEq_word ci k0 y0 hr]; exact hk0w⟩
    obtain ⟨y0, hy0, hy0w⟩ := hy0
    have hyq : ∃ yq, qs.getLast? = some yq ∧ pyIsWordChar yq = true := by
      obtain ⟨yq, hyq, hr⟩ := forall2_getLast hfq xq hxq
      exact ⟨yq, hyq, by rw [← charEq_word ci xq yq hr]; exact hxqw⟩
    obtain ⟨yq, hyq, hyqw⟩ := hyq
    have hqs_ne : qs ≠ [] := forall2_ne_nil hfq hq1
    refine ⟨pre, kws ++ (ws ++ (qs ++ rest)), by rw [hsplit]; simp [List.append_assoc], ?_⟩
    simp only [List.cons_append, List.append_assoc]
    rw [matchToks_wb, Bool.and_eq_true]
    constructor
    · refine boundary_left_intro (lastOpt pre none) _ y0 (head?_append_some hy0) hy0w ?_
      intro c hc
      rw [lastOpt_none] at hc
      exact hpre c hc
    · rw [matchToks_lits]
      refine ⟨kws, ws ++ (qs ++ rest), rfl, hfkw, ?_⟩
      rw [matchToks_splus_iff]
      refine ⟨ws, qs ++ rest, rfl, hwne, hwsp, ?_⟩
      rw [matchToks_lits]
      refine ⟨qs, rest, rfl, hfq, ?_⟩
      rw [matchToks_wb, Bool.and_eq_true]
      refine ⟨?_, matchToks_nil ci _ rest⟩
      refine boundary_right_intro _ rest.head? yq ?_ hyqw ?_
      · rw [lastOpt_of_ne_nil qs _ hqs_ne]
        exact hyq
      · intro c hc
        exact hrest c hc

/-- C3 (counterexample): in class mode with query `Repository`, a file
whose only line is `public interface IUserRepository` produces NO match —
the pattern requires the query to start right after the whitespace
following the keyword, and `IUserRepository` only contains it as a proper
suffix — contradicting the claim's scenario, which demands a match. -/
theorem C3_counterexample :
    (search_code cfgIUR "Repository" "class" false 20 3).total_matches = 0 ∧
    (search_code cfgIUR "Repository" "class" false 20 3).results = [] ∧
    search_in_file "public interface IUserRepository" "A.cs" "A.cs" "Repository" "class"
      false 3 = [] := by
  refine ⟨by decide, by decide, by decide⟩

/-- C3 (amended): for an identifier-like query (nonempty, word characters
only), a line matches class mode iff one of the keywords `class`,
`interface`, `struct`, `enum` at a word boundary is immediately followed by
whitespace and then the literal query as a whole word; consequently
`public interface Repository` matches with query `Repository`, while
`public interface IUserRepository` and `var myRepository = new Thing();`
do not. -/
theorem C3_class_mode (q : String) (hq1 : q.data ≠ [])
    (hq2 : ∀ c ∈ q.data, pyIsWordChar c = true) (cs : Bool) (line : String) :
    (classLineMatch cs q line = true ↔ specClassMatch cs q line) ∧
    classLineMatch false "Repository" "public interface Repository" = true ∧
    classLineMatch false "Repository" "public interface IUserRepository" = false ∧
    classLineMatch false "Repository" "var myRepository = new Thing();" = false := by
  refine ⟨?_, by decide, by decide, by decide⟩
  unfold classLineMatch specClassMatch get_search_patterns
  rw [if_neg (by decide), if_pos (by decide)]
  rw [List.any_eq_true]
  constructor
  · rintro ⟨p, hp, hsearch⟩
    rw [List.mem_map] at hp
    obtain ⟨kw, hkw, rfl⟩ := hp
    have hkprops : kw.data ≠ [] ∧ (∀ c ∈ kw.data, pyIsWordChar c = true) := by
      fin_cases hkw <;> exact ⟨by decide, by decide⟩
    rw [class_pattern_iff (!cs) kw q hkprops.1 hkprops.2 hq1 hq2 line] at hsearch
    obtain ⟨pre, kws, ws, qs, rest, h1, h2, h3, h4, h5, h6, h7⟩ := hsearch
    exact ⟨kw, hkw, pre, kws, ws, qs, rest, h1, h2, h3, h4, h5, h6, h7⟩
  · rintro ⟨kw, hkw, pre, kws, ws, qs, rest, h1, h2, h3, h4, h5, h6, h7⟩
    refine ⟨_, List.mem_map_of_mem _ hkw, ?_⟩
    have hkprops : kw.data ≠ [] ∧ (∀ c ∈ kw.data, pyIsWordChar c = true) := by
      fin_cases hkw <;> exact ⟨by decide, by decide⟩
    rw [class_pattern_iff (!cs) kw q hkprops.1 hkprops.2 hq1 hq2 line]
    exact ⟨pre, kws, ws, qs, rest, h1, h2, h3, h4, h5, h6, h7⟩

/-- C3 (witness): the amended equivalence applied at query `Repository`
and the matching line `public interface Repository`. -/
theorem C3_class_mode_witness :
    specClassMatch false "Repository" "public interface Repository" :=
  ((C3_class_mode "Repository" (by decide) (by decide) false
    "public interface Repository").1).mp (by decide)
